import Mathlib

/-!
# Verification of the bookmark-homepage tree engine

Shallow embedding of `script.js` from the bookmark-homepage repository.
The global mutable array `bookmarks` is modelled as an explicit value of
type `Store = List Node` that every operation takes and returns.  JS
`undefined` fields are modelled with `Option`; the sentinel root parent is
the empty string, exactly as in the source.  `Array.prototype.sort` with a
comparator (stable in modern engines, and the comparators in this code
break every tie explicitly by original index) is modelled by the stable
insertion sort `sortLe`.  Unbounded JS recursions (`isDescendant`,
`deleteRecursive`) are embedded with an explicit fuel argument; the fuel
chosen suffices on every store whose parent graph is acyclic, which is
proved below rather than assumed.
-/

namespace Homepage

/-! ## Small list toolkit

Executable stand-ins for the JS array operations used by the source:
a stable insertion sort for `Array.prototype.sort` with a comparator,
`findIdxA` for `Array.prototype.findIndex`, `containsSub` for
`String.prototype.includes`, and a code-point lexicographic order for
`String.prototype.localeCompare` (locale collation approximated by
code-point order). -/

def insortLe {α : Type} (le : α → α → Bool) (x : α) : List α → List α
  | [] => [x]
  | y :: ys => if le x y then x :: y :: ys else y :: insortLe le x ys

def sortLe {α : Type} (le : α → α → Bool) : List α → List α
  | [] => []
  | x :: xs => insortLe le x (sortLe le xs)

theorem insortLe_perm {α : Type} (le : α → α → Bool) (x : α) (l : List α) :
    (insortLe le x l).Perm (x :: l) := by
  induction l with
  | nil => simp [insortLe]
  | cons y ys ih =>
    by_cases h : le x y
    · simp [insortLe, h]
    · simp only [insortLe, h, Bool.false_eq_true, if_false]
      exact (List.Perm.cons y ih).trans (List.Perm.swap x y ys)

theorem sortLe_perm {α : Type} (le : α → α → Bool) (l : List α) :
    (sortLe le l).Perm l := by
  induction l with
  | nil => simp [sortLe]
  | cons x xs ih =>
    exact ((insortLe_perm le x (sortLe le xs)).trans (List.Perm.cons x ih))

theorem mem_sortLe {α : Type} {le : α → α → Bool} {x : α} {l : List α} :
    x ∈ sortLe le l ↔ x ∈ l :=
  (sortLe_perm le l).mem_iff

theorem insortLe_pairwise {α : Type} {le : α → α → Bool}
    (htrans : ∀ a b c, le a b = true → le b c = true → le a c = true)
    (htot : ∀ a b, le a b = true ∨ le b a = true)
    {x : α} {l : List α} (hl : l.Pairwise (fun a b => le a b = true)) :
    (insortLe le x l).Pairwise (fun a b => le a b = true) := by
  induction l with
  | nil => simp [insortLe]
  | cons y ys ih =>
    rcases List.pairwise_cons.mp hl with ⟨hy, hys⟩
    by_cases h : le x y
    · simp only [insortLe, h, if_true]
      refine List.pairwise_cons.mpr ⟨?_, hl⟩
      intro z hz
      rcases List.mem_cons.mp hz with rfl | hz2
      · exact h
      · exact htrans x y z h (hy z hz2)
    · have hyx : le y x = true := by
        rcases htot x y with h1 | h1
        · exact absurd h1 h
        · exact h1
      simp only [insortLe, h, Bool.false_eq_true, if_false]
      refine List.pairwise_cons.mpr ⟨?_, ih hys⟩
      intro z hz
      have hz2 : z = x ∨ z ∈ ys := by
        have := (insortLe_perm le x ys).mem_iff.mp hz
        simpa using this
      rcases hz2 with rfl | hz2
      · exact hyx
      · exact hy z hz2

theorem sortLe_pairwise {α : Type} {le : α → α → Bool}
    (htrans : ∀ a b c, le a b = true → le b c = true → le a c = true)
    (htot : ∀ a b, le a b = true ∨ le b a = true)
    (l : List α) : (sortLe le l).Pairwise (fun a b => le a b = true) := by
  induction l with
  | nil => simp [sortLe]
  | cons x xs ih => exact insortLe_pairwise htrans htot ih

/-- JS `Array.prototype.findIndex`. -/
def findIdxA {α : Type} (p : α → Bool) : List α → Option Nat
  | [] => none
  | x :: xs => if p x then some 0 else (findIdxA p xs).map (· + 1)

/-- Needle is a prefix of the haystack (both as char lists). -/
def isPrefixList : List Char → List Char → Bool
  | [], _ => true
  | _ :: _, [] => false
  | a :: as, b :: bs => a == b && isPrefixList as bs

/-- JS `String.prototype.includes`: `containsSub hay needle`. -/
def containsSub (hay needle : List Char) : Bool :=
  match hay with
  | [] => isPrefixList needle []
  | _ :: t => isPrefixList needle hay || containsSub t needle

/-- JS `String.prototype.startsWith`. -/
def startsWithList (hay needle : List Char) : Bool := isPrefixList needle hay

/-- JS `String.prototype.endsWith`. -/
def endsWithList (hay needle : List Char) : Bool :=
  isPrefixList needle.reverse hay.reverse

/-- JS `String.prototype.toLowerCase` (Unicode simple lowercasing,
approximated by `Char.toLower`). -/
def lowerChars (l : List Char) : List Char := l.map Char.toLower

/-- JS `String.prototype.trim`. -/
def trimChars (l : List Char) : List Char :=
  ((l.dropWhile (fun c => c.isWhitespace)).reverse.dropWhile
    (fun c => c.isWhitespace)).reverse

/-- Code-point lexicographic order on char lists; stand-in for
`String.prototype.localeCompare` ascending. -/
def lexLe : List Char → List Char → Bool
  | [], _ => true
  | _ :: _, [] => false
  | a :: as, b :: bs => if a = b then lexLe as bs else decide (a < b)

theorem lexLe_total : ∀ a b : List Char, lexLe a b = true ∨ lexLe b a = true := by
  intro a
  induction a with
  | nil => intro b; left; rfl
  | cons x xs ih =>
    intro b
    cases b with
    | nil => right; rfl
    | cons y ys =>
      by_cases hxy : x = y
      · subst hxy
        rcases ih ys with h | h
        · left; simpa [lexLe] using h
        · right; simpa [lexLe] using h
      · rcases lt_or_gt_of_ne (a := x) (b := y) hxy with h | h
        · left; simp [lexLe, hxy, h]
        · right
          have hyx : y ≠ x := fun he => hxy he.symm
          simp [lexLe, hyx, h]

theorem lexLe_trans : ∀ a b c : List Char,
    lexLe a b = true → lexLe b c = true → lexLe a c = true := by
  intro a
  induction a with
  | nil => intro b c _ _; rfl
  | cons x xs ih =>
    intro b c hab hbc
    cases b with
    | nil => simp [lexLe] at hab
    | cons y ys =>
      cases c with
      | nil => simp [lexLe] at hbc
      | cons z zs =>
        by_cases hxy : x = y <;> by_cases hyz : y = z
        · subst hxy; subst hyz
          simp only [lexLe, if_pos rfl] at hab hbc ⊢
          exact ih ys zs hab hbc
        · subst hxy
          simp only [lexLe, if_pos rfl, if_neg hyz] at hbc ⊢
          exact hbc
        · subst hyz
          simp only [lexLe, if_neg hxy, if_pos rfl] at hab ⊢
          exact hab
        · simp only [lexLe, if_neg hxy, if_neg hyz] at hab hbc
          have hxz : x < z := lt_trans (of_decide_eq_true hab) (of_decide_eq_true hbc)
          have hne : x ≠ z := ne_of_lt hxz
          simp [lexLe, hne, hxz]

/-- Comparator key for sibling ordering: `a.order !== undefined ? a.order :
Infinity` — `none` plays the role of `Infinity`. -/
def oLe : Option Nat → Option Nat → Bool
  | none, none => true
  | some _, none => true
  | none, some _ => false
  | some a, some b => a ≤ b

theorem oLe_total : ∀ a b : Option Nat, oLe a b = true ∨ oLe b a = true := by
  intro a b
  cases a <;> cases b <;> simp [oLe] <;> omega

theorem oLe_trans : ∀ a b c : Option Nat,
    oLe a b = true → oLe b c = true → oLe a c = true := by
  intro a b c hab hbc
  cases a <;> cases b <;> cases c <;> simp [oLe] at * <;> omega

/-! ## Data model

One record per entry of the global `bookmarks` array.  Optional JS fields
(`url` on folders, `accessTime` on folders, `order` after a cross-parent
move resets it to `undefined`) are `Option`s.  The legacy `children` field
of one default bookmark is never read by any operation and is not
modelled. -/

structure Node where
  id : String
  name : String
  type : String
  parent : String
  url : Option String := none
  accessTime : Option Nat := none
  order : Option Nat := none
deriving DecidableEq, Repr

/-- The global `bookmarks` array. -/
abbrev Store : Type := List Node

/-- `getItemsByParent` (script.js:464-476): filter by literal parent id,
then sort by the `order` field, `undefined` sorting as `Infinity`, ties
keeping original array order (the comparator breaks ties by
`bookmarks.indexOf`, which on the filtered list coincides with a stable
sort by the `order` key). -/
def getItemsByParent (s : Store) (parentId : String) : List Node :=
  sortLe (fun a b => oLe a.order b.order) (s.filter (fun n => n.parent == parentId))

theorem mem_getItemsByParent {s : Store} {parentId : String} {x : Node} :
    x ∈ getItemsByParent s parentId ↔ x ∈ s ∧ x.parent = parentId := by
  unfold getItemsByParent
  rw [mem_sortLe, List.mem_filter]
  simp

/-! ## Parent-chain walk

`isDescendant` (script.js:822-827) recurses up the parent chain with no
termination guard; the embedding gives the recursion an explicit fuel.
`walk fuel s itemId ancestorId` returns `some answer` when the JS
recursion finishes within `fuel` lookups and `none` when the fuel runs
out.  On an acyclic store `s.length + 1` lookups always suffice (proved
below), so `isDescendant` fixes that fuel. -/

/-- `bookmarks.find(b => b.id === itemId)`. -/
def lookup (s : Store) (id : String) : Option Node :=
  s.find? (fun b => b.id == id)

def walk : Nat → Store → String → String → Option Bool
  | 0, _, _, _ => none
  | fuel + 1, s, itemId, ancestorId =>
    match lookup s itemId with
    | none => some false
    | some item =>
      if item.parent = "" then some false
      else if item.parent = ancestorId then some true
      else walk fuel s item.parent ancestorId

/-- `isDescendant(itemId, ancestorId)` (script.js:822-827). -/
def isDescendant (s : Store) (itemId ancestorId : String) : Bool :=
  (walk (s.length + 1) s itemId ancestorId).getD false

/-- One upward step of the parent chain, recorded with the node visited:
`Chain s a b l` holds when the JS walk starting at id `a` visits exactly
the nodes `l` and reaches a node whose parent id is `b` (with every parent
on the way, including `b`, non-empty — the walk stops at an empty parent
before ever comparing it). -/
inductive Chain (s : Store) : String → String → List Node → Prop
  | base {a b : String} {n : Node} :
      lookup s a = some n → n.parent = b → b ≠ "" → Chain s a b [n]
  | step {a b : String} {n : Node} {l : List Node} :
      lookup s a = some n → n.parent ≠ "" → Chain s n.parent b l →
      Chain s a b (n :: l)

/-- `b` lies (strictly) on the parent chain of `a`. -/
def Desc (s : Store) (a b : String) : Prop := ∃ l, Chain s a b l

/-- `x` is `f` itself or a strict descendant of `f`. -/
def InSubtree (s : Store) (f x : String) : Prop := x = f ∨ Desc s x f

/-- The parent graph of the store has no cycle: no id is on its own
parent chain. -/
def Acyclic (s : Store) : Prop := ∀ a : String, ¬ Desc s a a

theorem lookup_id {s : Store} {a : String} {n : Node} (h : lookup s a = some n) :
    n.id = a := by
  have := List.find?_some h
  simpa using this

theorem lookup_mem {s : Store} {a : String} {n : Node} (h : lookup s a = some n) :
    n ∈ s := List.mem_of_find?_eq_some h

theorem chain_mem {s : Store} {a b : String} {l : List Node}
    (h : Chain s a b l) : ∀ x ∈ l, x ∈ s := by
  induction h with
  | base hl _ _ =>
    intro x hx
    rcases List.mem_singleton.mp hx with rfl
    exact lookup_mem hl
  | step hl _ _ ih =>
    intro x hx
    rcases List.mem_cons.mp hx with rfl | hx2
    · exact lookup_mem hl
    · exact ih x hx2

theorem chain_ne_nil {s : Store} {a b : String} {l : List Node}
    (h : Chain s a b l) : l ≠ [] := by
  cases h <;> simp

/-- Inversion of a chain along its first visited node. -/
theorem chain_cons_inv {s : Store} {a b : String} {n : Node} {l : List Node}
    (h : Chain s a b (n :: l)) :
    lookup s a = some n ∧ n.parent ≠ "" ∧
      ((l = [] ∧ n.parent = b) ∨ Chain s n.parent b l) := by
  cases h with
  | base hl hp hb => exact ⟨hl, by rw [hp]; exact hb, Or.inl ⟨rfl, hp⟩⟩
  | step hl hp hc => exact ⟨hl, hp, Or.inr hc⟩

/-- Truncating a chain at any interior node: the walk up to and including
`m` is a chain ending at `m.parent`. -/
theorem chain_trunc {s : Store} {b : String} {m : Node} :
    ∀ {a : String} {u v : List Node}, Chain s a b (u ++ m :: v) →
    Chain s a m.parent (u ++ [m]) := by
  intro a u
  induction u generalizing a with
  | nil =>
    intro v h
    obtain ⟨hl, hp, _⟩ := chain_cons_inv h
    exact Chain.base hl rfl hp
  | cons w ws ih =>
    intro v h
    rw [List.cons_append] at h
    obtain ⟨hl, hp, hrest⟩ := chain_cons_inv h
    rcases hrest with ⟨hnil, _⟩ | hc
    · exact absurd hnil (by simp)
    · rw [List.cons_append]
      exact Chain.step hl hp (ih hc)

/-- Extending a chain by one more upward step. -/
theorem chain_snoc {s : Store} {a b d : String} {l : List Node} {m : Node}
    (h : Chain s a b l) (hl : lookup s b = some m) (hp : m.parent = d)
    (hd : d ≠ "") : Chain s a d (l ++ [m]) := by
  induction h with
  | base hla hpa hba =>
    refine Chain.step hla (by rw [hpa]; exact hba) ?_
    rw [hpa]
    exact Chain.base hl hp hd
  | step hla hpa _ ih =>
    exact Chain.step hla hpa (ih hl)

/-- The suffix of a chain starting at any visited node is itself a chain
from that node's id. -/
theorem chain_suffix {s : Store} {b : String} {n : Node} {v : List Node} :
    ∀ {a : String} {u : List Node}, Chain s a b (u ++ n :: v) →
    Chain s n.id b (n :: v) := by
  intro a u
  induction u generalizing a with
  | nil =>
    intro h
    obtain ⟨hl, _, _⟩ := chain_cons_inv h
    rw [lookup_id hl]
    exact h
  | cons w ws ih =>
    intro h
    rw [List.cons_append] at h
    obtain ⟨hl, hp, hrest⟩ := chain_cons_inv h
    rcases hrest with ⟨hnil, _⟩ | hc
    · exact absurd hnil (by simp)
    · exact ih hc

/-- On an acyclic store every chain visits pairwise distinct nodes. -/
theorem chain_nodup {s : Store} (hac : Acyclic s) {a b : String}
    {l : List Node} (h : Chain s a b l) : l.Nodup := by
  induction h with
  | base _ _ _ => simp
  | step hl hp hc ih =>
    rename_i a2 b2 n l2
    refine List.nodup_cons.mpr ⟨?_, ih⟩
    intro hmem
    rcases List.append_of_mem hmem with ⟨u, v, rfl⟩
    have := chain_trunc hc
    exact hac n.parent ⟨u ++ [n], this⟩

/-- Pigeonhole: on an acyclic store every chain is at most as long as the
store. -/
theorem chain_length_le {s : Store} (hac : Acyclic s) {a b : String}
    {l : List Node} (h : Chain s a b l) : l.length ≤ s.length := by
  have hsub : l.Subperm s :=
    List.subperm_of_subset (chain_nodup hac h) (fun x hx => chain_mem h x hx)
  exact hsub.length_le

theorem walk_mono {s : Store} {a b : String} {v : Bool} :
    ∀ {fuel fuel2 : Nat}, walk fuel s a b = some v → fuel ≤ fuel2 →
    walk fuel2 s a b = some v := by
  intro fuel
  induction fuel generalizing a with
  | zero => intro fuel2 h; simp [walk] at h
  | succ n ih =>
    intro fuel2 h hle
    obtain ⟨m, rfl⟩ : ∃ m, fuel2 = m + 1 := ⟨fuel2 - 1, by omega⟩
    simp only [walk] at h ⊢
    cases hl : lookup s a with
    | none => rw [hl] at h; exact h
    | some item =>
      rw [hl] at h
      by_cases h1 : item.parent = ""
      · simp only [h1, if_pos rfl] at h ⊢; exact h
      · by_cases h2 : item.parent = b
        · simp only [if_neg h1, h2, if_pos rfl] at h ⊢; exact h
        · simp only [if_neg h1, if_neg h2] at h ⊢
          exact ih h (by omega)

/-- A `true` answer of the walk certifies a chain no longer than the fuel. -/
theorem walk_true_chain {s : Store} {b : String} :
    ∀ {fuel : Nat} {a : String}, walk fuel s a b = some true →
    ∃ l, Chain s a b l ∧ l.length ≤ fuel := by
  intro fuel
  induction fuel with
  | zero => intro a h; simp [walk] at h
  | succ n ih =>
    intro a h
    simp only [walk] at h
    cases hl : lookup s a with
    | none => rw [hl] at h; simp at h
    | some item =>
      rw [hl] at h
      by_cases h1 : item.parent = ""
      · simp [h1] at h
      · by_cases h2 : item.parent = b
        · exact ⟨[item], Chain.base hl h2 (h2 ▸ h1), by simp⟩
        · simp only [if_neg h1, if_neg h2] at h
          obtain ⟨l, hc, hlen⟩ := ih h
          exact ⟨item :: l, Chain.step hl h1 hc, by simpa using Nat.succ_le_succ hlen⟩

/-- A chain certifies a `true` answer at any fuel at least its length. -/
theorem chain_walk_true {s : Store} {b : String} :
    ∀ {l : List Node} {a : String} {fuel : Nat}, Chain s a b l →
    l.length ≤ fuel → walk fuel s a b = some true := by
  intro l
  induction l with
  | nil => intro a fuel h; exact absurd rfl (chain_ne_nil h)
  | cons n l2 ih =>
    intro a fuel h hlen
    obtain ⟨m, rfl⟩ : ∃ m, fuel = m + 1 := ⟨fuel - 1, by simp at hlen; omega⟩
    cases h with
    | base hl hp hb =>
      have h1 : n.parent ≠ "" := by rw [hp]; exact hb
      simp only [walk, hl, if_neg h1, if_pos hp]
    | step hl hp hc =>
      simp only [walk, hl, if_neg hp]
      by_cases h2 : n.parent = b
      · simp [h2]
      · simp only [if_neg h2]
        exact ih hc (by simp at hlen; omega)

/-- A fuel-exhausted walk certifies a chain exactly as long as the fuel. -/
theorem walk_none_chain {s : Store} {b : String} :
    ∀ {fuel : Nat} {a : String}, 1 ≤ fuel → walk fuel s a b = none →
    ∃ l c, Chain s a c l ∧ l.length = fuel := by
  intro fuel
  induction fuel with
  | zero => intro a h; omega
  | succ n ih =>
    intro a _ h
    simp only [walk] at h
    cases hl : lookup s a with
    | none => rw [hl] at h; simp at h
    | some item =>
      rw [hl] at h
      by_cases h1 : item.parent = ""
      · simp [h1] at h
      · by_cases h2 : item.parent = b
        · rw [h2] at h1
          simp [h2, h1] at h
        · simp only [if_neg h1, if_neg h2] at h
          rcases Nat.eq_zero_or_pos n with rfl | hn
          · exact ⟨[item], item.parent, Chain.base hl rfl h1, by simp⟩
          · obtain ⟨l, c, hc, hlen⟩ := ih hn h
            exact ⟨item :: l, c, Chain.step hl h1 hc, by simpa using hlen⟩

/-- On an acyclic store the walk always finishes within `s.length + 1`
lookups. -/
theorem walk_total {s : Store} (hac : Acyclic s) (a b : String) :
    (walk (s.length + 1) s a b).isSome := by
  cases hw : walk (s.length + 1) s a b with
  | some v => simp
  | none =>
    obtain ⟨l, c, hc, hlen⟩ := walk_none_chain (by omega) hw
    have := chain_length_le hac hc
    omega

/-- On an acyclic store `isDescendant` decides `Desc`. -/
theorem isDescendant_iff_Desc {s : Store} (hac : Acyclic s) {a b : String} :
    isDescendant s a b = true ↔ Desc s a b := by
  constructor
  · intro h
    unfold isDescendant at h
    cases hw : walk (s.length + 1) s a b with
    | none => rw [hw] at h; simp at h
    | some v =>
      rw [hw] at h
      simp at h
      subst h
      obtain ⟨l, hc, _⟩ := walk_true_chain hw
      exact ⟨l, hc⟩
  · rintro ⟨l, hc⟩
    have h1 : walk l.length s a b = some true :=
      chain_walk_true hc le_rfl
    have h2 : walk (s.length + 1) s a b = some true :=
      walk_mono h1 (by have := chain_length_le hac hc; omega)
    unfold isDescendant
    rw [h2]
    rfl

/-! ## Store well-formedness

The spec's data model: ids are globally unique, the empty string is the
root sentinel and never a node id, and the parent graph is acyclic.  A
decidable acyclicity check `acyclicB` (every node's own upward walk
finishes without revisiting the node) is proved sound so that concrete
stores can discharge `Acyclic` by evaluation. -/

def nodupIds (s : Store) : Prop := (s.map (fun n => n.id)).Nodup

def noEmptyIds (s : Store) : Prop := ∀ n ∈ s, n.id ≠ ""

def WF (s : Store) : Prop := nodupIds s ∧ noEmptyIds s ∧ Acyclic s

instance (s : Store) : Decidable (nodupIds s) :=
  inferInstanceAs (Decidable (List.Nodup _))

instance (s : Store) : Decidable (noEmptyIds s) :=
  List.decidableBAll _ s

def acyclicB (s : Store) : Bool :=
  s.all (fun n => walk (s.length + 1) s n.id n.id == some false)

theorem chain_endpoint_ne {s : Store} {a b : String} {l : List Node}
    (h : Chain s a b l) : b ≠ "" := by
  induction h with
  | base _ _ hb => exact hb
  | step _ _ _ ih => exact ih

theorem acyclicB_sound {s : Store} (h : acyclicB s = true) : Acyclic s := by
  intro a hd
  obtain ⟨l, hc⟩ := hd
  obtain ⟨n, lrest, rfl⟩ : ∃ n lrest, l = n :: lrest := by
    cases l with
    | nil => exact absurd rfl (chain_ne_nil hc)
    | cons n lrest => exact ⟨n, lrest, rfl⟩
  obtain ⟨hl, _, _⟩ := chain_cons_inv hc
  have hmem : n ∈ s := lookup_mem hl
  have hid : n.id = a := lookup_id hl
  have hfalse : walk (s.length + 1) s a a = some false := by
    have := List.all_eq_true.mp h n hmem
    rw [hid] at this
    exact eq_of_beq this
  have htrue : walk ((n :: lrest).length) s a a = some true :=
    chain_walk_true hc le_rfl
  have htrue2 : walk (max (s.length + 1) ((n :: lrest).length)) s a a = some true :=
    walk_mono htrue (le_max_right _ _)
  have hfalse2 : walk (max (s.length + 1) ((n :: lrest).length)) s a a = some false :=
    walk_mono hfalse (le_max_left _ _)
  rw [htrue2] at hfalse2
  simp at hfalse2

theorem lookup_of_mem {s : Store} (hnd : nodupIds s) {x : Node} (hx : x ∈ s) :
    lookup s x.id = some x := by
  induction s with
  | nil => simp at hx
  | cons y rest ih =>
    have hnd2 : (rest.map (fun n => n.id)).Nodup ∧ y.id ∉ rest.map (fun n => n.id) := by
      have := hnd
      unfold nodupIds at this
      rw [List.map_cons, List.nodup_cons] at this
      exact ⟨this.2, this.1⟩
    rcases List.mem_cons.mp hx with rfl | hx2
    · simp [lookup, List.find?]
    · have hne : (y.id == x.id) = false := by
        rw [beq_eq_false_iff_ne]
        intro he
        exact hnd2.2 (he ▸ List.mem_map_of_mem (fun n => n.id) hx2)
      unfold lookup at ih ⊢
      rw [List.find?_cons, hne]
      exact ih hnd2.1 hx2

theorem mem_id_eq {s : Store} (hnd : nodupIds s) {x y : Node}
    (hx : x ∈ s) (hy : y ∈ s) (hid : x.id = y.id) : x = y := by
  have h1 := lookup_of_mem hnd hx
  have h2 := lookup_of_mem hnd hy
  rw [hid] at h1
  rw [h1] at h2
  exact Option.some.inj h2

theorem nodupIds_sublist {s t : Store} (h : t.Sublist s) (hnd : nodupIds s) :
    nodupIds t :=
  List.Nodup.sublist (List.Sublist.map _ h) hnd

theorem noEmptyIds_sublist {s t : Store} (h : t.Sublist s) (hne : noEmptyIds s) :
    noEmptyIds t := fun n hn => hne n (h.mem hn)

theorem nodup_of_nodupIds {s : Store} (hnd : nodupIds s) : s.Nodup :=
  List.Nodup.of_map _ hnd

theorem sublist_lookup {s t : Store} (hnd : nodupIds s) (hsub : t.Sublist s)
    {a : String} {n : Node} (h : lookup t a = some n) : lookup s a = some n := by
  have hmem : n ∈ s := hsub.mem (lookup_mem h)
  have hid : n.id = a := lookup_id h
  rw [← hid]
  exact lookup_of_mem hnd hmem

theorem chain_lift {s t : Store} (hnd : nodupIds s) (hsub : t.Sublist s)
    {a b : String} {l : List Node} (h : Chain t a b l) : Chain s a b l := by
  induction h with
  | base hl hp hb => exact Chain.base (sublist_lookup hnd hsub hl) hp hb
  | step hl hp _ ih => exact Chain.step (sublist_lookup hnd hsub hl) hp ih

theorem acyclic_sublist {s t : Store} (hnd : nodupIds s) (hsub : t.Sublist s)
    (hac : Acyclic s) : Acyclic t := by
  intro a hd
  obtain ⟨l, hc⟩ := hd
  exact hac a ⟨l, chain_lift hnd hsub hc⟩

/-- Chain into a sublist: a chain of the big store whose visited nodes all
survive into the sublist is a chain of the sublist. -/
theorem chain_into_sublist {s t : Store} (hnd : nodupIds s) (hsub : t.Sublist s)
    {a b : String} {l : List Node} (h : Chain s a b l)
    (hall : ∀ n ∈ l, n ∈ t) : Chain t a b l := by
  induction h with
  | base hl hp hb =>
    rename_i a2 b2 n
    have hl2 : lookup t a2 = some n := by
      rw [← lookup_id hl]
      exact lookup_of_mem (nodupIds_sublist hsub hnd) (hall n (by simp))
    exact Chain.base hl2 hp hb
  | step hl hp hc ih =>
    rename_i a2 b2 n l2
    have hl2 : lookup t a2 = some n := by
      rw [← lookup_id hl]
      exact lookup_of_mem (nodupIds_sublist hsub hnd) (hall n (by simp))
    exact Chain.step hl2 hp (ih (fun m hm => hall m (by simp [hm])))

/-- The parent walk is deterministic: two chains from the same start id to
the same endpoint id visit exactly the same nodes (on an acyclic store). -/
theorem chains_same_endpoint {s : Store} (hac : Acyclic s) {e : String} :
    ∀ {l1 : List Node} {a : String} {l2 : List Node},
    Chain s a e l1 → Chain s a e l2 → l1 = l2 := by
  intro l1
  induction l1 with
  | nil => intro a l2 h1 _; exact absurd rfl (chain_ne_nil h1)
  | cons n l1t ih =>
    intro a l2 h1 h2
    obtain ⟨n2, l2t, rfl⟩ : ∃ n2 l2t, l2 = n2 :: l2t := by
      cases l2 with
      | nil => exact absurd rfl (chain_ne_nil h2)
      | cons n2 l2t => exact ⟨n2, l2t, rfl⟩
    obtain ⟨hl1, _, hrest1⟩ := chain_cons_inv h1
    obtain ⟨hl2, _, hrest2⟩ := chain_cons_inv h2
    have hn : n2 = n := by
      rw [hl1] at hl2
      exact (Option.some.inj hl2).symm
    subst hn
    rcases hrest1 with ⟨hnil1, hp1⟩ | hc1
    · rcases hrest2 with ⟨hnil2, _⟩ | hc2
      · rw [hnil1, hnil2]
      · rw [hp1] at hc2
        exact absurd ⟨l2t, hc2⟩ (hac e)
    · rcases hrest2 with ⟨_, hp2⟩ | hc2
      · rw [hp2] at hc1
        exact absurd ⟨l1t, hc1⟩ (hac e)
      · rw [ih hc1 hc2]

/-- Every chain ends at a node whose parent is the endpoint. -/
theorem chain_last {s : Store} {a b : String} {l : List Node}
    (h : Chain s a b l) : ∃ u m, l = u ++ [m] ∧ m.parent = b ∧ m ∈ s := by
  induction h with
  | base hl hp _ => exact ⟨[], _, rfl, hp, lookup_mem hl⟩
  | step hl hp2 hc2 ih =>
    rename_i a2 b2 n l2
    obtain ⟨u, m, rfl, hp2, hm⟩ := ih
    exact ⟨n :: u, m, rfl, hp2, hm⟩

/-- Dropping the last node of a chain leaves a chain to that node's id. -/
theorem chain_init {s : Store} (hne : noEmptyIds s) {b : String} {m : Node} :
    ∀ {u : List Node} {a : String}, Chain s a b (u ++ [m]) → u ≠ [] →
    Chain s a m.id u := by
  intro u
  induction u with
  | nil => intro a _ hu; exact absurd rfl hu
  | cons w ws ih =>
    intro a h _
    rw [List.cons_append] at h
    obtain ⟨hl, hp, hrest⟩ := chain_cons_inv h
    rcases hrest with ⟨hnil, _⟩ | hc
    · exact absurd hnil (by simp)
    · cases ws with
      | nil =>
        obtain ⟨hlm, _, _⟩ := chain_cons_inv hc
        have hid : m.id = w.parent := lookup_id hlm
        exact Chain.base hl hid.symm (by rw [hid]; exact hp)
      | cons w2 ws2 =>
        exact Chain.step hl hp (ih hc (by simp))

/-! ## Cascade delete

`deleteItem`/`deleteRecursive` (script.js:1157-1179): collect the current
children of the target id, recursively delete each child's subtree (the
global array shrinking as it goes), then filter the target id out of the
array.  The unbounded JS recursion gets an explicit fuel; `deleteItem`
runs it with fuel `s.length`, which suffices on every well-formed store
because parent chains there are no longer than the store (proved via
`chain_length_le`). -/

/-- `children.forEach(child => deleteRecursive(child.id))`: thread the
shrinking store through the recursive deletions of a child list. -/
def foldDelete (f : String → Store → Store) : List Node → Store → Store
  | [], t => t
  | c :: cs, t => foldDelete f cs (f c.id t)

def deleteRec : Nat → String → Store → Store
  | 0, id, t => t.filter (fun b => !(b.id == id))
  | fuel + 1, id, t =>
      (foldDelete (deleteRec fuel) (getItemsByParent t id) t).filter
        (fun b => !(b.id == id))

/-- The child-list pass of `deleteRecursive` at a given fuel. -/
def deleteChildren (fuel : Nat) : List Node → Store → Store :=
  foldDelete (deleteRec fuel)

theorem deleteRec_succ (fuel : Nat) (id : String) (t : Store) :
    deleteRec (fuel + 1) id t =
      (deleteChildren fuel (getItemsByParent t id) t).filter
        (fun b => !(b.id == id)) := rfl

theorem deleteChildren_nil (fuel : Nat) (t : Store) :
    deleteChildren fuel [] t = t := rfl

theorem deleteChildren_cons (fuel : Nat) (c : Node) (cs : List Node) (t : Store) :
    deleteChildren fuel (c :: cs) t =
      deleteChildren fuel cs (deleteRec fuel c.id t) := rfl

/-- `deleteItem(id)` (script.js:1157-1179), confirmation prompt aside. -/
def deleteItem (id : String) (s : Store) : Store := deleteRec s.length id s

theorem deleteChildren_append (fuel : Nat) (cs1 cs2 : List Node) (t : Store) :
    deleteChildren fuel (cs1 ++ cs2) t =
      deleteChildren fuel cs2 (deleteChildren fuel cs1 t) := by
  induction cs1 generalizing t with
  | nil => rfl
  | cons c cs ih =>
    rw [List.cons_append, deleteChildren_cons, deleteChildren_cons, ih]

theorem deleteRec_sublist : ∀ (fuel : Nat) (id : String) (t : Store),
    (deleteRec fuel id t).Sublist t := by
  intro fuel
  induction fuel with
  | zero => intro id t; exact List.filter_sublist t
  | succ n ih =>
    intro id t
    have hch : ∀ (cs : List Node) (t2 : Store),
        (deleteChildren n cs t2).Sublist t2 := by
      intro cs
      induction cs with
      | nil => intro t2; exact List.Sublist.refl t2
      | cons c cs2 ih2 =>
        intro t2
        rw [deleteChildren_cons]
        exact ((ih2 (deleteRec n c.id t2)).trans (ih c.id t2))
    rw [deleteRec_succ]
    exact (List.filter_sublist _).trans (hch _ t)

theorem deleteChildren_sublist (fuel : Nat) (cs : List Node) (t : Store) :
    (deleteChildren fuel cs t).Sublist t := by
  induction cs generalizing t with
  | nil => exact List.Sublist.refl t
  | cons c cs2 ih =>
    rw [deleteChildren_cons]
    exact (ih (deleteRec fuel c.id t)).trans (deleteRec_sublist fuel c.id t)

theorem deleteRec_id_ne {fuel : Nat} {id : String} {t : Store} {y : Node}
    (h : y ∈ deleteRec fuel id t) : y.id ≠ id := by
  cases fuel with
  | zero =>
    have := (List.mem_filter.mp h).2
    simpa using this
  | succ n =>
    rw [deleteRec_succ] at h
    have := (List.mem_filter.mp h).2
    simpa using this

/-- Survival: a node that is not the target and has no parent chain to the
target survives `deleteRec` untouched. -/
theorem deleteRec_survives : ∀ (fuel : Nat) (id : String) (t : Store) (x : Node),
    nodupIds t → noEmptyIds t → x ∈ t → x.id ≠ id → id ≠ "" →
    ¬ Desc t x.id id → x ∈ deleteRec fuel id t := by
  intro fuel
  induction fuel with
  | zero =>
    intro id t x _ _ hx hne _ _
    exact List.mem_filter.mpr ⟨hx, by simpa using hne⟩
  | succ n ih =>
    intro id t x hnd hnee hx hne hid hdesc
    rw [deleteRec_succ]
    refine List.mem_filter.mpr ⟨?_, by simpa using hne⟩
    have hchild : ∀ (cs : List Node) (acc : Store),
        (∀ c ∈ cs, c ∈ t ∧ c.parent = id) → acc.Sublist t → x ∈ acc →
        x ∈ deleteChildren n cs acc := by
      intro cs
      induction cs with
      | nil => intro acc _ _ hxacc; exact hxacc
      | cons c cs2 ih2 =>
        intro acc hcs hsub hxacc
        obtain ⟨hct, hcp⟩ := hcs c (by simp)
        have hcid : c.id ≠ "" := hnee c hct
        have hxc : x.id ≠ c.id := by
          intro he
          have hxec : x = c := mem_id_eq hnd hx hct he
          refine hdesc ⟨[x], Chain.base (lookup_of_mem hnd hx) ?_ hid⟩
          rw [hxec]
          exact hcp
        have hdc : ¬ Desc acc x.id c.id := by
          rintro ⟨l, hc⟩
          have hct2 : Chain t x.id c.id l := chain_lift hnd hsub hc
          have : Chain t x.id id (l ++ [c]) :=
            chain_snoc hct2 (lookup_of_mem hnd hct) hcp hid
          exact hdesc ⟨l ++ [c], this⟩
        have hstep : x ∈ deleteRec n c.id acc :=
          ih c.id acc x (nodupIds_sublist hsub hnd) (noEmptyIds_sublist hsub hnee)
            hxacc hxc hcid hdc
        rw [deleteChildren_cons]
        exact ih2 (deleteRec n c.id acc)
          (fun c2 hc2 => hcs c2 (by simp [hc2]))
          ((deleteRec_sublist n c.id acc).trans hsub) hstep
    refine hchild (getItemsByParent t id) t ?_ (List.Sublist.refl t) hx
    intro c hc
    exact ⟨(mem_getItemsByParent.mp hc).1, (mem_getItemsByParent.mp hc).2⟩

/-- Whoever disappears during the child fold was removed by one specific
recursive call. -/
theorem deleteChildren_removal {fuel : Nat} {x : Node} :
    ∀ {cs : List Node} {acc : Store}, x ∈ acc → x ∉ deleteChildren fuel cs acc →
    ∃ c ∈ cs, ∃ acc2 : Store, acc2.Sublist acc ∧ x ∈ acc2 ∧
      x ∉ deleteRec fuel c.id acc2 := by
  intro cs
  induction cs with
  | nil =>
    intro acc hx habs
    rw [deleteChildren_nil] at habs
    exact absurd hx habs
  | cons c cs2 ih =>
    intro acc hx hgone
    rw [deleteChildren_cons] at hgone
    by_cases hx2 : x ∈ deleteRec fuel c.id acc
    · obtain ⟨c2, hc2, acc2, hsub, hm, hgone2⟩ := ih hx2 hgone
      exact ⟨c2, by simp [hc2], acc2, hsub.trans (deleteRec_sublist fuel c.id acc),
        hm, hgone2⟩
    · exact ⟨c, by simp, acc, List.Sublist.refl acc, hx, hx2⟩

/-- Completeness: any node whose parent chain reaches the target id is
removed, given fuel at least the chain length. -/
theorem deleteRec_complete : ∀ (fuel : Nat) (id : String) (t : Store) (x : Node)
    (l : List Node), nodupIds t → noEmptyIds t → Acyclic t → x ∈ t →
    Chain t x.id id l → l.length ≤ fuel → x ∉ deleteRec fuel id t := by
  intro fuel
  induction fuel with
  | zero =>
    intro id t x l _ _ _ _ hc hlen
    have := chain_ne_nil hc
    cases l with
    | nil => exact absurd rfl this
    | cons a b => simp at hlen
  | succ n ih =>
    intro id t x l hnd hnee hac hx hc hlen
    have hid : id ≠ "" := chain_endpoint_ne hc
    obtain ⟨u, cstar, rfl, hcp, hcmem⟩ := chain_last hc
    have hcstar_cs : cstar ∈ getItemsByParent t id :=
      mem_getItemsByParent.mpr ⟨hcmem, hcp⟩
    obtain ⟨cs1, cs2, hcssplit⟩ := List.append_of_mem hcstar_cs
    have hcsnodup : (getItemsByParent t id).Nodup := by
      unfold getItemsByParent
      exact (sortLe_perm _ _).nodup_iff.mpr
        ((nodup_of_nodupIds hnd).filter _)
    have hcstar_not1 : cstar ∉ cs1 := by
      rw [hcssplit] at hcsnodup
      intro habs
      exact (List.nodup_append.mp hcsnodup).2.2 habs (List.mem_cons_self _ _)
    intro hmem
    rw [deleteRec_succ] at hmem
    have hmemfold := (List.mem_filter.mp hmem).1
    rw [hcssplit, deleteChildren_append, deleteChildren_cons] at hmemfold
    set A := deleteChildren n cs1 t with hA
    have hAsub : A.Sublist t := deleteChildren_sublist n cs1 t
    have hmemstep : x ∈ deleteRec n cstar.id A :=
      (deleteChildren_sublist n cs2 _).mem hmemfold
    cases u with
    | nil =>
      obtain ⟨hl0, _, _⟩ := chain_cons_inv hc
      have hx0 : cstar = x := by
        have := lookup_of_mem hnd hx
        rw [this] at hl0
        exact (Option.some.inj hl0).symm
      exact deleteRec_id_ne hmemstep (by rw [hx0])
    | cons x0 w =>
      have hx0 : x0 = x := by
        obtain ⟨hl0, _, _⟩ := chain_cons_inv (by rw [List.cons_append] at hc; exact hc)
        have := lookup_of_mem hnd hx
        rw [this] at hl0
        exact (Option.some.inj hl0).symm
      have hchain_init : Chain t x.id cstar.id (x0 :: w) :=
        chain_init hnee hc (by simp)
      have hallA : ∀ m ∈ x0 :: w, m ∈ A := by
        intro m hm
        by_contra hnot
        have hmt : m ∈ t := by
          refine chain_mem hc m ?_
          rcases List.mem_cons.mp hm with rfl | h2
          · exact List.mem_cons_self _ _
          · exact List.mem_cons_of_mem _ (List.mem_append_left _ h2)
        obtain ⟨cq, hcq, acc2, hsub2, hmacc2, hgone⟩ :=
          deleteChildren_removal hmt hnot
        obtain ⟨hcqt, hcqp⟩ :=
          mem_getItemsByParent.mp (by rw [hcssplit]; exact List.mem_append_left _ hcq)
        have hcqid : cq.id ≠ "" := hnee cq hcqt
        -- the removed chain node is in the subtree of the earlier sibling cq
        have hK2 : ∃ k2, Chain t m.id id k2 ∧ k2.getLast? = some cq := by
          by_cases hmq : m.id = cq.id
          · have hmeq : m = cq := mem_id_eq hnd hmt hcqt hmq
            refine ⟨[m], Chain.base (lookup_of_mem hnd hmt) ?_ hid, by simp [hmeq]⟩
            rw [hmeq]
            exact hcqp
          · have hsurv := deleteRec_survives n cq.id acc2 m
              (nodupIds_sublist hsub2 hnd)
              (noEmptyIds_sublist hsub2 hnee) hmacc2 (by simpa using hmq)
              hcqid
            have hdm : Desc acc2 m.id cq.id := by
              by_contra hno
              exact hgone (hsurv hno)
            obtain ⟨k, hk⟩ := hdm
            have hkt : Chain t m.id cq.id k := chain_lift hnd hsub2 hk
            refine ⟨k ++ [cq],
              chain_snoc hkt (lookup_of_mem hnd hcqt) hcqp hid, by simp⟩
        obtain ⟨k2, hk2, hk2last⟩ := hK2
        -- and also on the walk towards cstar: both are the same walk
        obtain ⟨u2, v2, hmv⟩ := List.append_of_mem hm
        have hS : Chain t m.id id (m :: (v2 ++ [cstar])) := by
          have : (x0 :: w) ++ [cstar] = u2 ++ m :: (v2 ++ [cstar]) := by
            rw [hmv]; simp
          exact chain_suffix (this ▸ hc)
        have heq : k2 = m :: (v2 ++ [cstar]) := chains_same_endpoint hac hk2 hS
        rw [heq] at hk2last
        have : cstar = cq := by
          have h1 : (m :: (v2 ++ [cstar])).getLast? = some cstar := by
            rw [← List.cons_append]
            exact List.getLast?_concat _
          rw [h1] at hk2last
          exact Option.some.inj hk2last
        exact hcstar_not1 (this ▸ hcq)
      have hchainA : Chain A x.id cstar.id (x0 :: w) :=
        chain_into_sublist hnd hAsub hchain_init hallA
      have hxA : x ∈ A := hallA x (by rw [hx0]; simp)
      refine ih cstar.id A x (x0 :: w) (nodupIds_sublist hAsub hnd)
        (noEmptyIds_sublist hAsub hnee) (acyclic_sublist hnd hAsub hac) hxA hchainA
        ?_ hmemstep
      have : (x0 :: w ++ [cstar]).length ≤ n + 1 := hlen
      simp at this ⊢
      omega

/-! ## Search and ranking

`searchBookmarks` (script.js:406-424): case-insensitive substring match on
names over the whole flat store, sorted by access time descending (missing
`accessTime` counts as 0 via `a.accessTime || 0`), ties by name ascending
(`localeCompare`, modelled as code-point order). -/

/-- The sort comparator of `searchBookmarks` as a boolean "comparator ≤ 0"
relation: `b.accessTime - a.accessTime`, ties by `a.name.localeCompare(b.name)`. -/
def searchLe (a b : Node) : Bool :=
  let aTime := a.accessTime.getD 0
  let bTime := b.accessTime.getD 0
  if aTime = bTime then lexLe a.name.data b.name.data else decide (bTime < aTime)

theorem searchLe_total : ∀ a b : Node, searchLe a b = true ∨ searchLe b a = true := by
  intro a b
  unfold searchLe
  by_cases h : a.accessTime.getD 0 = b.accessTime.getD 0
  · simp only [h, if_pos rfl, if_pos h.symm]
    exact lexLe_total _ _
  · have hne : b.accessTime.getD 0 ≠ a.accessTime.getD 0 := fun he => h he.symm
    simp only [if_neg h, if_neg hne]
    rcases Nat.lt_or_ge (b.accessTime.getD 0) (a.accessTime.getD 0) with h2 | h2
    · left; exact decide_eq_true h2
    · right
      exact decide_eq_true (lt_of_le_of_ne h2 h)

theorem searchLe_trans : ∀ a b c : Node,
    searchLe a b = true → searchLe b c = true → searchLe a c = true := by
  intro a b c hab hbc
  unfold searchLe at *
  by_cases h1 : a.accessTime.getD 0 = b.accessTime.getD 0 <;>
    by_cases h2 : b.accessTime.getD 0 = c.accessTime.getD 0
  · rw [if_pos h1] at hab
    rw [if_pos h2] at hbc
    rw [if_pos (h1.trans h2)]
    exact lexLe_trans _ _ _ hab hbc
  · rw [if_pos h1] at hab
    rw [if_neg h2] at hbc
    rw [if_neg (h1 ▸ h2)]
    exact h1 ▸ hbc
  · rw [if_neg h1] at hab
    rw [if_pos h2] at hbc
    rw [if_neg (h2 ▸ h1)]
    exact h2 ▸ hab
  · rw [if_neg h1] at hab
    rw [if_neg h2] at hbc
    have ha := of_decide_eq_true hab
    have hb := of_decide_eq_true hbc
    have hlt : c.accessTime.getD 0 < a.accessTime.getD 0 := lt_trans hb ha
    rw [if_neg (by omega)]
    exact decide_eq_true hlt

/-- `searchBookmarks(query)` (script.js:406-424). -/
def searchBookmarks (query : String) (s : Store) : List Node :=
  if query = "" then []
  else
    sortLe searchLe
      (s.filter (fun item =>
        containsSub (lowerChars item.name.data) (lowerChars query.data)))

/-! ## Same-parent reorder and the drop handler

`reorderBookmark` (script.js:830-852) mutates the sibling objects in
place; here the mutation is keyed by node id (the objects found in the
store and in the computed sibling list are the same objects exactly when
ids are unique, which the data model guarantees). -/

/-- The per-node effect of `reorderBookmark`'s final `forEach`
(script.js:843-851): each arranged sibling gets `order := index`, the
dragged one also `parent := parentId`; the assignment is keyed by id. -/
def reindexBy (arranged : List Node) (draggedId parentId : String) (n : Node) :
    Node :=
  match findIdxA (fun b => b.id == n.id) arranged with
  | some j =>
    if n.id == draggedId then { n with order := some j, parent := parentId }
    else { n with order := some j }
  | none => n

def reorderBookmark (s : Store) (draggedItem targetItem : Node)
    (parentId : String) : Store :=
  let siblings := getItemsByParent s parentId
  let siblingsWithoutDragged := siblings.filter (fun b => !(b.id == draggedItem.id))
  match findIdxA (fun b => b.id == targetItem.id) siblingsWithoutDragged with
  | none => s
  | some targetIndex =>
    let arranged := siblingsWithoutDragged.insertIdx targetIndex draggedItem
    s.map (reindexBy arranged draggedItem.id parentId)

/-- The `drop` handler installed by `setupDropZone` (script.js:639-697).
`item` is the element dropped onto (`none` for the empty drop zone),
`paneParentId` the value `getCurrentParentId(level)` captured at setup
time, `draggedId` the id carried in the drag payload. -/
def handleDrop (s : Store) (item : Option Node) (paneParentId : String)
    (draggedId : String) : Store :=
  let parentId := match item with
    | some it => if it.parent = "" then paneParentId else it.parent
    | none => paneParentId
  match lookup s draggedId with
  | none => s
  | some draggedItemObj =>
    if (match item with
        | some it => it.id == draggedItemObj.id
        | none => false) then s
    else
      let newParent := match item with
        | some it => if it.type == "folder" then it.id else parentId
        | none => parentId
      if (match item with
          | some it => it.type == "folder" && isDescendant s it.id draggedItemObj.id
          | none => false) then s
      else if (draggedItemObj.parent == newParent) && item.isSome then
        reorderBookmark s draggedItemObj (item.getD draggedItemObj) newParent
      else
        s.map (fun n => if n.id == draggedItemObj.id
          then { n with parent := newParent, order := none } else n)

/-! ## Navigation cursor -/

def MAX_LEVELS : Nat := 10

/-- JS `Array.prototype.slice(0, e)` with a possibly negative end index. -/
def jsSliceTo {α : Type} (l : List α) (e : Int) : List α :=
  if e < 0 then l.take (((l.length : Int) + e).toNat) else l.take e.toNat

/-- The cursor effect of `navigateToFolder(folder, currentLevel)`
(script.js:700-742): at or beyond `MAX_LEVELS` the function alerts and
returns with `currentPath` untouched; below it, `currentPath` is truncated
to `currentLevel - 1` entries and the folder is pushed.  (The `!nextPane`
bail-out cannot fire: `index.html` — outside `src/` — provides panes
`1..MAX_LEVELS` per the spec's drill-down bound, and `nextLevel ≤
MAX_LEVELS` holds whenever the depth guard passed.)  Returns
`(succeeded, new currentPath)`. -/
def navigateToFolder (currentPath : List (String × String)) (folder : Node)
    (currentLevel : Nat) : Bool × List (String × String) :=
  if MAX_LEVELS ≤ currentLevel then (false, currentPath)
  else (true, jsSliceTo currentPath ((currentLevel : Int) - 1) ++
    [(folder.id, folder.name)])

/-- `restoreNavigationState` (script.js:761-784): each stored `(id, name)`
entry is re-resolved against the live store (`b.id === id && b.type ===
'folder'`); resolved entries keep the live name unless it is empty
(`folder.name || folderData.name`), unresolved entries become `null` and
are filtered out.  `map` followed by `filter(f => f !== null)` is the
`filterMap` below. -/
def restoreNavigationState (storedPath : List (String × String)) (s : Store) :
    List (String × String) :=
  storedPath.filterMap (fun folderData =>
    match s.find? (fun b => b.id == folderData.1 && b.type == "folder") with
    | some folder =>
        some (folder.id, if folder.name = "" then folderData.2 else folder.name)
    | none => none)

/-! ## Native JSON export / import

`exportBookmarks` (script.js:111-132) writes `JSON.stringify(bookmarks,
null, 2)`; the JSON branch of `handleFileImport` (script.js:1283-1329)
runs `JSON.parse` and only checks `Array.isArray`.  The platform
`JSON.stringify`/`JSON.parse` pair is modelled here on the sublanguage the
export emits — arrays of flat objects with string and non-negative number
fields — with `JSON.stringify`'s exact two-space pretty-printing and its
string escaping (`"`, `\`, control characters; `undefined` fields are
omitted).  Field insertion order is modelled as the order used by
`saveBookmarkItem` (script.js:1106-1121): id, name, type, parent, url,
accessTime, order. -/

inductive JVal where
  | jstr (v : List Char)
  | jnum (v : Nat)
deriving DecidableEq, Repr

abbrev JObj := List (List Char × JVal)

def hexDigitChar (n : Nat) : Char :=
  if n < 10 then Char.ofNat (48 + n) else Char.ofNat (87 + n)

def escapeChar (c : Char) : List Char :=
  if c = '"' then ['\\', '"']
  else if c = '\\' then ['\\', '\\']
  else if c = '\x08' then ['\\', 'b']
  else if c = '\x09' then ['\\', 't']
  else if c = '\x0a' then ['\\', 'n']
  else if c = '\x0c' then ['\\', 'f']
  else if c = '\x0d' then ['\\', 'r']
  else if c.toNat < 32 then
    ['\\', 'u', '0', '0', hexDigitChar (c.toNat / 16), hexDigitChar (c.toNat % 16)]
  else [c]

def renderString (s : List Char) : List Char :=
  '"' :: (s.map escapeChar).flatten ++ ['"']

def natToCharsAux : Nat → Nat → List Char → List Char
  | 0, _, acc => acc
  | fuel + 1, n, acc =>
    if n < 10 then Char.ofNat (48 + n) :: acc
    else natToCharsAux fuel (n / 10) (Char.ofNat (48 + n % 10) :: acc)

/-- Decimal rendering of a non-negative number; `n` itself is always
enough fuel since the argument shrinks by a factor of ten per step. -/
def natToChars (n : Nat) : List Char := natToCharsAux (n + 1) n []

def renderJVal : JVal → List Char
  | JVal.jstr v => renderString v
  | JVal.jnum n => natToChars n

def joinSep (sep : List Char) : List (List Char) → List Char
  | [] => []
  | [x] => x
  | x :: y :: ys => x ++ sep ++ joinSep sep (y :: ys)

def renderField (f : List Char × JVal) : List Char :=
  [' ', ' ', ' ', ' '] ++ renderString f.1 ++ ':' :: ' ' :: renderJVal f.2

def renderObj (o : JObj) : List Char :=
  if o = [] then [' ', ' ', '\x7b', '\x7d']
  else [' ', ' ', '\x7b', '\n'] ++ joinSep [',', '\n'] (o.map renderField) ++
    ['\n', ' ', ' ', '\x7d']

/-- The JSON records of one store entry, in the field insertion order of
`saveBookmarkItem`; `undefined` (`none`) fields are omitted, exactly as
`JSON.stringify` drops them. -/
def encodeNode (n : Node) : JObj :=
  [("id".data, JVal.jstr n.id.data), ("name".data, JVal.jstr n.name.data),
   ("type".data, JVal.jstr n.type.data), ("parent".data, JVal.jstr n.parent.data)] ++
  (match n.url with
   | some u => [("url".data, JVal.jstr u.data)]
   | none => []) ++
  (match n.accessTime with
   | some t => [("accessTime".data, JVal.jnum t)]
   | none => []) ++
  (match n.order with
   | some o => [("order".data, JVal.jnum o)]
   | none => [])

def renderStore (s : Store) : List Char :=
  if s = [] then ['[', ']']
  else '[' :: '\n' :: joinSep [',', '\n'] (s.map (fun n => renderObj (encodeNode n))) ++
    ['\n', ']']

/-- The text written by `exportBookmarks` (script.js:111-132):
`JSON.stringify(bookmarks, null, 2)`. -/
def exportBookmarks (s : Store) : List Char := renderStore s

/-! ### The modelled `JSON.parse` -/

def wsChar (c : Char) : Bool := c = ' ' || c = '\n' || c = '\t' || c = '\r'

def skipWs (l : List Char) : List Char := l.dropWhile wsChar

def unescape (e : Char) : Option Char :=
  if e = '"' then some '"'
  else if e = '\\' then some '\\'
  else if e = '/' then some '/'
  else if e = 'b' then some '\x08'
  else if e = 'f' then some '\x0c'
  else if e = 'n' then some '\x0a'
  else if e = 'r' then some '\x0d'
  else if e = 't' then some '\x09'
  else none

def hexVal (c : Char) : Option Nat :=
  if '0' ≤ c ∧ c ≤ '9' then some (c.toNat - 48)
  else if 'a' ≤ c ∧ c ≤ 'f' then some (c.toNat - 87)
  else if 'A' ≤ c ∧ c ≤ 'F' then some (c.toNat - 55)
  else none

def pStringBody : List Char → Option (List Char × List Char)
  | [] => none
  | c :: rest =>
    if c = '"' then some ([], rest)
    else if c = '\\' then
      match rest with
      | [] => none
      | e :: r2 =>
        if e = 'u' then
          match r2 with
          | h1 :: h2 :: h3 :: h4 :: r3 =>
            match hexVal h1, hexVal h2, hexVal h3, hexVal h4 with
            | some a, some b, some c2, some d =>
              match pStringBody r3 with
              | some (tail, rest2) =>
                  some (Char.ofNat (4096 * a + 256 * b + 16 * c2 + d) :: tail, rest2)
              | none => none
            | _, _, _, _ => none
          | _ => none
        else
          match unescape e with
          | some ch =>
            match pStringBody r2 with
            | some (tail, rest2) => some (ch :: tail, rest2)
            | none => none
          | none => none
    else
      match pStringBody rest with
      | some (tail, rest2) => some (c :: tail, rest2)
      | none => none

def digitVal (c : Char) : Nat := c.toNat - 48

def pNat (l : List Char) : Option (Nat × List Char) :=
  let ds := l.takeWhile (fun c => c.isDigit)
  if ds = [] then none
  else some (ds.foldl (fun acc c => 10 * acc + digitVal c) 0,
    l.dropWhile (fun c => c.isDigit))

def pVal (l : List Char) : Option (JVal × List Char) :=
  match l with
  | [] => none
  | c :: r =>
    if c = '"' then
      match pStringBody r with
      | some (sv, rest) => some (JVal.jstr sv, rest)
      | none => none
    else
      match pNat (c :: r) with
      | some (n, rest) => some (JVal.jnum n, rest)
      | none => none

def pFields : Nat → List Char → Option (JObj × List Char)
  | 0, _ => none
  | fuel + 1, l =>
    match skipWs l with
    | [] => none
    | c :: r =>
      if c = '"' then
        match pStringBody r with
        | none => none
        | some (key, r2) =>
          match skipWs r2 with
          | [] => none
          | c2 :: r4 =>
            if c2 = ':' then
              match pVal (skipWs r4) with
              | none => none
              | some (v, r5) =>
                match skipWs r5 with
                | [] => none
                | c3 :: r7 =>
                  if c3 = ',' then
                    match pFields fuel r7 with
                    | some (flds, r8) => some ((key, v) :: flds, r8)
                    | none => none
                  else if c3 = '\x7d' then some ([(key, v)], r7)
                  else none
            else none
      else none

def pObj (fuel : Nat) (l : List Char) : Option (JObj × List Char) :=
  match skipWs l with
  | [] => none
  | c :: r =>
    if c = '\x7b' then
      match skipWs r with
      | [] => none
      | c2 :: r2 => if c2 = '\x7d' then some ([], r2) else pFields fuel r
    else none

def pObjs : Nat → List Char → Option (List JObj × List Char)
  | 0, _ => none
  | fuel + 1, l =>
    match pObj fuel l with
    | none => none
    | some (o, r) =>
      match skipWs r with
      | [] => none
      | c :: r2 =>
        if c = ',' then
          match pObjs fuel r2 with
          | some (os, r3) => some (o :: os, r3)
          | none => none
        else if c = ']' then some ([o], r2)
        else none

/-- `JSON.parse` on the modelled sublanguage: a full-input parse of an
array of flat objects (`none` both for a parse error and for valid JSON
that is outside the fragment the export produces; either way the
JS import path fails or is out of the modelled scope). -/
def jsonParse (l : List Char) : Option (List JObj) :=
  match skipWs l with
  | [] => none
  | c :: r =>
    if c = '[' then
      match skipWs r with
      | [] => none
      | c2 :: r2 =>
        if c2 = ']' then (if skipWs r2 = [] then some [] else none)
        else
          match pObjs l.length r with
          | some (os, r3) => if skipWs r3 = [] then some os else none
          | none => none
    else none

def lookupField (key : List Char) (o : JObj) : Option JVal :=
  (o.find? (fun f => f.1 == key)).map (fun f => f.2)

def asStr : Option JVal → Option (List Char)
  | some (JVal.jstr v) => some v
  | _ => none

def asNum : Option JVal → Option Nat
  | some (JVal.jnum v) => some v
  | _ => none

/-- Read one parsed record back as a store entry.  The JS import installs
parsed records verbatim; on the record shapes the export produces this is
exactly the decoding below (other shapes are outside the modelled
fragment). -/
def decodeNode (o : JObj) : Option Node :=
  match asStr (lookupField ("id".data) o), asStr (lookupField ("name".data) o),
      asStr (lookupField ("type".data) o), asStr (lookupField ("parent".data) o) with
  | some i, some nm, some ty, some pa =>
    some { id := ⟨i⟩, name := ⟨nm⟩, type := ⟨ty⟩, parent := ⟨pa⟩,
           url := (asStr (lookupField ("url".data) o)).map (fun u => (⟨u⟩ : String)),
           accessTime := asNum (lookupField ("accessTime".data) o),
           order := asNum (lookupField ("order".data) o) }
  | _, _, _, _ => none

/-! ## Third-party (Chrome/Netscape) bookmark markup

`parseChromeBookmarks` (script.js:1182-1280) walks the DOM produced by
`DOMParser.parseFromString(text, 'text/html')`.  The platform HTML parser
is modelled by `domParse`: a simplified tokenizer/tree-builder that keeps
the rules relevant to bookmark exports — tag names are case-insensitive
(stored uppercase), attribute names lowercase, a `DT` start tag
auto-closes an open `DT`, an end tag of an open ancestor implicitly closes
the elements above it, unclosed elements close at end of input, and
everything outside tags is text. -/

inductive DomNode where
  | elem (tag : String) (attrs : List (String × String)) (children : List DomNode)
  | text (s : List Char)

def isElem : DomNode → Bool
  | DomNode.elem _ _ _ => true
  | DomNode.text _ => false

def tagOf : DomNode → String
  | DomNode.elem t _ _ => t
  | DomNode.text _ => ""

mutual

def textContent : DomNode → List Char
  | DomNode.text s => s
  | DomNode.elem _ _ children => textContentList children

def textContentList : List DomNode → List Char
  | [] => []
  | n :: ns => textContent n ++ textContentList ns

end

mutual

def qsel (tag : String) : List DomNode → Option DomNode
  | [] => none
  | n :: ns =>
    match qselNode tag n with
    | some e => some e
    | none => qsel tag ns

def qselNode (tag : String) : DomNode → Option DomNode
  | DomNode.text _ => none
  | DomNode.elem t attrs ch =>
    if t == tag then some (DomNode.elem t attrs ch) else qsel tag ch

end

/-- `getAttribute` (case-insensitive for HTML; attribute names are stored
lowercased, the caller queries with a lowercase name). -/
def getAttr (name : String) (attrs : List (String × String)) : Option String :=
  (attrs.find? (fun a => a.1 == name)).map (fun a => a.2)

def upperChars (l : List Char) : List Char := l.map Char.toUpper

inductive HTok where
  | topen (tag : String) (attrs : List (String × String))
  | tclose (tag : String)
  | ttext (s : List Char)

def parseAttrs : Nat → List Char → List (String × String)
  | 0, _ => []
  | fuel + 1, l =>
    match l.dropWhile (fun c => c == ' ') with
    | [] => []
    | l1 =>
      let name := l1.takeWhile (fun c => !(c == '=') && !(c == ' '))
      match l1.dropWhile (fun c => !(c == '=') && !(c == ' ')) with
      | '=' :: '"' :: r2 =>
        (⟨lowerChars name⟩, ⟨r2.takeWhile (fun c => !(c == '"'))⟩) ::
          parseAttrs fuel ((r2.dropWhile (fun c => !(c == '"'))).drop 1)
      | _ => []

def tokenize : Nat → List Char → List HTok
  | 0, _ => []
  | _, [] => []
  | fuel + 1, '<' :: rest =>
    let inside := rest.takeWhile (fun c => !(c == '>'))
    let rest2 := (rest.dropWhile (fun c => !(c == '>'))).drop 1
    (match inside with
     | '/' :: tname => HTok.tclose ⟨upperChars (trimChars tname)⟩
     | _ =>
       let tname := inside.takeWhile (fun c => !(c == ' '))
       let attrsPart := inside.dropWhile (fun c => !(c == ' '))
       HTok.topen ⟨upperChars tname⟩ (parseAttrs attrsPart.length attrsPart)) ::
      tokenize fuel rest2
  | fuel + 1, c :: rest =>
    HTok.ttext ((c :: rest).takeWhile (fun ch => !(ch == '<'))) ::
      tokenize fuel ((c :: rest).dropWhile (fun ch => !(ch == '<')))

def buildSeq : Nat → List String → List HTok → List DomNode × List HTok
  | 0, _, toks => ([], toks)
  | _, _, [] => ([], [])
  | fuel + 1, anc, tok :: rest =>
    match tok with
    | HTok.ttext s =>
      let p := buildSeq fuel anc rest
      (DomNode.text s :: p.1, p.2)
    | HTok.tclose t =>
      if anc.head? = some t then ([], rest)
      else if t ∈ anc then ([], tok :: rest)
      else buildSeq fuel anc rest
    | HTok.topen t attrs =>
      if t = "DT" ∧ anc.head? = some "DT" then ([], tok :: rest)
      else
        let kids := buildSeq fuel (t :: anc) rest
        let sibs := buildSeq fuel anc kids.2
        (DomNode.elem t attrs kids.1 :: sibs.1, sibs.2)

/-- Simplified model of `DOMParser.parseFromString(text, 'text/html')`,
restricted to the constructs above. -/
def domParse (text : List Char) : List DomNode :=
  let toks := tokenize text.length text
  (buildSeq (2 * toks.length + 2) [] toks).1

mutual

def dsize : DomNode → Nat
  | DomNode.text _ => 1
  | DomNode.elem _ _ ch => 1 + dsizeList ch

def dsizeList : List DomNode → Nat
  | [] => 0
  | n :: ns => dsize n + dsizeList ns

end

/-- The message of the JS `ReferenceError` raised at script.js:1256:
`currentFolderId` is referenced there but declared nowhere in the script
(every other occurrence is the unrelated DOM property
`dataset.currentFolderId`), so the first accepted `<A>` entry throws. -/
def refErrMsg : String := "ReferenceError: currentFolderId is not defined"

/-- `processDL` (script.js:1194-1271).  `gen` abstracts the
time-and-random id generator (`generateId`, script.js:1189-1191) as a
function of the running counter; `fuel` bounds the recursion into nested
lists (any value at least the nesting depth is exact, and the caller
passes the whole DOM size).  State: emitted records and the id counter.
Throws (`Except.error`) where the JS throws. -/
def processItems (gen : Nat → String)
    (recurse : List DomNode → String → List Node → Nat →
      Except String (List Node × Nat)) :
    List DomNode → String → List Node → Nat → Except String (List Node × Nat)
  | [], _, result, idc => Except.ok (result, idc)
  | node :: rest, parentId, result, idc =>
    match node with
    | DomNode.text _ => processItems gen recurse rest parentId result idc
    | DomNode.elem tag _ dtChildren =>
      if tag = "DT" then
        match (dtChildren.filter isElem).head? with
        | some (DomNode.elem ftag fattrs fchildren) =>
          if ftag = "H3" then
            let folderName := trimChars (textContentList fchildren)
            if folderName = [] then processItems gen recurse rest parentId result idc
            else
              let folderId := gen idc
              let folder : Node :=
                { id := folderId, name := ⟨folderName⟩, type := "folder",
                  parent := parentId }
              let nestedDL :=
                match ((dtChildren.filter isElem).drop 1).find?
                    (fun e => tagOf e == "DL") with
                | some dl => some dl
                | none => qsel "DL" dtChildren
              match nestedDL with
              | some (DomNode.elem _ _ dlChildren) =>
                match recurse dlChildren folderId (result ++ [folder]) (idc + 1) with
                | Except.ok (result3, idc3) =>
                    processItems gen recurse rest parentId result3 idc3
                | Except.error e => Except.error e
              | _ =>
                processItems gen recurse rest parentId (result ++ [folder]) (idc + 1)
          else if ftag = "A" then
            match getAttr "href" fattrs with
            | some u =>
              if u = "" then processItems gen recurse rest parentId result idc
              else if trimChars (textContentList fchildren) = [] then
                processItems gen recurse rest parentId result idc
              else Except.error refErrMsg
            | none => processItems gen recurse rest parentId result idc
          else processItems gen recurse rest parentId result idc
        | _ => processItems gen recurse rest parentId result idc
      else processItems gen recurse rest parentId result idc

def processDL (gen : Nat → String) :
    Nat → List DomNode → String → List Node → Nat → Except String (List Node × Nat)
  | 0, children, parentId, result, idc =>
    processItems gen (fun _ _ result2 idc2 => Except.ok (result2, idc2))
      children parentId result idc
  | fuel + 1, children, parentId, result, idc =>
    processItems gen (fun ch pid r i => processDL gen fuel ch pid r i)
      children parentId result idc

/-- `parseChromeBookmarks(htmlText)` (script.js:1182-1280), applied to an
already-parsed DOM. -/
def parseChromeBookmarks (gen : Nat → String) (doc : List DomNode) :
    Except String (List Node) :=
  match qsel "DL" doc with
  | some (DomNode.elem _ _ children) =>
    match processDL gen (dsizeList doc + 1) children "" [] 1 with
    | Except.ok (result, _) => Except.ok result
    | Except.error e => Except.error e
  | _ => Except.ok []

/-! ## `handleFileImport` (script.js:1283-1329) -/

instance {ε α : Type} [DecidableEq ε] [DecidableEq α] : DecidableEq (Except ε α) :=
  fun x y =>
    match x, y with
    | Except.error a, Except.error b =>
      if h : a = b then isTrue (by rw [h])
      else isFalse (fun he => h (by cases he; rfl))
    | Except.error _, Except.ok _ => isFalse (fun he => by cases he)
    | Except.ok _, Except.error _ => isFalse (fun he => by cases he)
    | Except.ok a, Except.ok b =>
      if h : a = b then isTrue (by rw [h])
      else isFalse (fun he => h (by cases he; rfl))

inductive ImportError where
  /-- an exception escaping `parseChromeBookmarks` (the `ReferenceError`) -/
  | refErr
  /-- `throw new Error('No bookmarks found in HTML file')` -/
  | noHtmlBookmarks
  /-- `JSON.parse` failure or `!Array.isArray` (or a parsed record outside
  the modelled fragment) -/
  | invalidFormat
deriving DecidableEq, Repr

/-- The import pipeline: format sniffing by file extension and markup
tokens, then either the Chrome-markup parser or the JSON parser; on
success the returned list replaces the whole store. -/
def handleFileImport (gen : Nat → String) (fileName text : List Char) :
    Except ImportError (List Node) :=
  if endsWithList fileName (".html".data)
      || startsWithList (trimChars text) ("<!DOCTYPE".data)
      || containsSub text ("<DT>".data)
      || containsSub text ("<DL>".data) then
    match parseChromeBookmarks gen (domParse text) with
    | Except.error _ => Except.error ImportError.refErr
    | Except.ok [] => Except.error ImportError.noHtmlBookmarks
    | Except.ok l => Except.ok l
  else
    match jsonParse text with
    | none => Except.error ImportError.invalidFormat
    | some objs =>
      match objs.mapM decodeNode with
      | some nodes => Except.ok nodes
      | none => Except.error ImportError.invalidFormat

/-! ## Round-trip of the modelled `JSON.parse` over the export output -/

theorem skipWs_ws_head {pre l : List Char} (h : ∀ c ∈ pre, wsChar c = true) :
    skipWs (pre ++ l) = skipWs l := by
  induction pre with
  | nil => rfl
  | cons c cs ih =>
    have hc : wsChar c = true := h c (by simp)
    unfold skipWs at *
    rw [List.cons_append, List.dropWhile_cons, hc]
    simp only [if_true]
    exact ih (fun c2 h2 => h c2 (by simp [h2]))

theorem skipWs_not {c : Char} {l : List Char} (h : wsChar c = false) :
    skipWs (c :: l) = c :: l := by
  unfold skipWs
  rw [List.dropWhile_cons, h]
  simp

theorem takeWhile_append_all {p : Char → Bool} :
    ∀ {u rest : List Char}, (∀ c ∈ u, p c = true) →
    (∀ c r2, rest = c :: r2 → p c = false) →
    (u ++ rest).takeWhile p = u := by
  intro u
  induction u with
  | nil =>
    intro rest _ hr
    cases rest with
    | nil => rfl
    | cons c r2 =>
      simp only [List.nil_append, List.takeWhile_cons, hr c r2 rfl]
      simp
  | cons c cs ih =>
    intro rest hu hr
    rw [List.cons_append, List.takeWhile_cons, hu c (by simp)]
    simp only [if_true]
    rw [ih (fun c2 h2 => hu c2 (by simp [h2])) hr]

theorem dropWhile_append_all {p : Char → Bool} :
    ∀ {u rest : List Char}, (∀ c ∈ u, p c = true) →
    (∀ c r2, rest = c :: r2 → p c = false) →
    (u ++ rest).dropWhile p = rest := by
  intro u
  induction u with
  | nil =>
    intro rest _ hr
    cases rest with
    | nil => rfl
    | cons c r2 =>
      simp only [List.nil_append, List.dropWhile_cons, hr c r2 rfl]
      simp
  | cons c cs ih =>
    intro rest hu hr
    rw [List.cons_append, List.dropWhile_cons, hu c (by simp)]
    simp only [if_true]
    exact ih (fun c2 h2 => hu c2 (by simp [h2])) hr

theorem natToCharsAux_eq :
    ∀ n, ∀ {fuel : Nat} (acc : List Char), n < fuel →
    natToCharsAux fuel n acc = natToChars n ++ acc := by
  intro n
  induction n using Nat.strong_induction_on with
  | _ n ih =>
    intro fuel acc hf
    obtain ⟨f, rfl⟩ : ∃ f, fuel = f + 1 := ⟨fuel - 1, by omega⟩
    by_cases h10 : n < 10
    · simp [natToCharsAux, natToChars, h10]
    · have hdiv : n / 10 < n := Nat.div_lt_self (by omega) (by omega)
      have hf2 : n / 10 < f := by omega
      simp only [natToCharsAux, if_neg h10, natToChars]
      rw [ih (n / 10) hdiv _ hf2, ih (n / 10) hdiv _ (by omega)]
      simp

theorem natToChars_eq (n : Nat) :
    natToChars n = if n < 10 then [Char.ofNat (48 + n)]
      else natToChars (n / 10) ++ [Char.ofNat (48 + n % 10)] := by
  by_cases h10 : n < 10
  · simp [natToChars, natToCharsAux, h10]
  · have h1 : natToChars n = natToCharsAux n (n / 10) [Char.ofNat (48 + n % 10)] := by
      simp [natToChars, natToCharsAux, h10]
    rw [h1, natToCharsAux_eq (n / 10) _ (Nat.div_lt_self (by omega) (by omega)),
      if_neg h10]

theorem digit_isDigit : ∀ k, k < 10 → (Char.ofNat (48 + k)).isDigit = true := by decide

theorem digit_not_quote : ∀ k, k < 10 → ¬ (Char.ofNat (48 + k) = '"') := by decide

theorem digit_digitVal : ∀ k, k < 10 → digitVal (Char.ofNat (48 + k)) = k := by decide

theorem natToChars_digits (n : Nat) : ∀ c ∈ natToChars n, c.isDigit = true := by
  induction n using Nat.strong_induction_on with
  | _ n ih =>
    rw [natToChars_eq]
    by_cases h10 : n < 10
    · simp only [if_pos h10]
      intro c hc
      rcases List.mem_singleton.mp hc with rfl
      exact digit_isDigit n h10
    · simp only [if_neg h10]
      intro c hc
      rcases List.mem_append.mp hc with hc2 | hc2
      · exact ih (n / 10) (Nat.div_lt_self (by omega) (by omega)) c hc2
      · rcases List.mem_singleton.mp hc2 with rfl
        exact digit_isDigit _ (Nat.mod_lt n (by omega))

theorem natToChars_ne_nil (n : Nat) : natToChars n ≠ [] := by
  rw [natToChars_eq]
  by_cases h10 : n < 10 <;> simp [h10]

theorem natToChars_val (n : Nat) :
    (natToChars n).foldl (fun acc c => 10 * acc + digitVal c) 0 = n := by
  induction n using Nat.strong_induction_on with
  | _ n ih =>
    rw [natToChars_eq]
    by_cases h10 : n < 10
    · simp only [if_pos h10, List.foldl_cons, List.foldl_nil]
      rw [digit_digitVal n h10]
      omega
    · simp only [if_neg h10, List.foldl_append, List.foldl_cons, List.foldl_nil]
      rw [ih (n / 10) (Nat.div_lt_self (by omega) (by omega)),
        digit_digitVal _ (Nat.mod_lt n (by omega))]
      omega

theorem pNat_round (n : Nat) {rest : List Char}
    (h : ∀ c r2, rest = c :: r2 → c.isDigit = false) :
    pNat (natToChars n ++ rest) = some (n, rest) := by
  unfold pNat
  rw [takeWhile_append_all (natToChars_digits n) h,
    dropWhile_append_all (natToChars_digits n) h]
  simp only [natToChars_ne_nil n, if_neg, reduceIte]
  rw [natToChars_val n]

theorem hex_round : ∀ m, m < 16 → hexVal (hexDigitChar m) = some m := by decide

theorem hexVal_zero : hexVal '0' = some 0 := by decide

theorem pStringBody_round :
    ∀ (sv rest : List Char),
    pStringBody ((sv.map escapeChar).flatten ++ '"' :: rest) = some (sv, rest) := by
  intro sv
  induction sv with
  | nil =>
    intro rest
    simp only [List.map_nil, List.flatten_nil, List.nil_append]
    unfold pStringBody
    simp
  | cons c cs ih =>
    intro rest
    rw [List.map_cons, List.flatten_cons, List.append_assoc]
    set M := (List.map escapeChar cs).flatten with hM
    by_cases h1 : c = '"'
    · subst h1
      have he : escapeChar '"' = ['\\', '"'] := rfl
      rw [he]
      unfold pStringBody
      simp +decide [unescape, ih]
    · by_cases h2 : c = '\\'
      · subst h2
        have he : escapeChar '\\' = ['\\', '\\'] := rfl
        rw [he]
        unfold pStringBody
        simp +decide [unescape, ih]
      · by_cases h3 : c = '\x08'
        · subst h3
          have he : escapeChar '\x08' = ['\\', 'b'] := rfl
          rw [he]
          unfold pStringBody
          simp +decide [unescape, ih]
        · by_cases h4 : c = '\x09'
          · subst h4
            have he : escapeChar '\x09' = ['\\', 't'] := rfl
            rw [he]
            unfold pStringBody
            simp +decide [unescape, ih]
          · by_cases h5 : c = '\x0a'
            · subst h5
              have he : escapeChar '\x0a' = ['\\', 'n'] := rfl
              rw [he]
              unfold pStringBody
              simp +decide [unescape, ih]
            · by_cases h6 : c = '\x0c'
              · subst h6
                have he : escapeChar '\x0c' = ['\\', 'f'] := rfl
                rw [he]
                unfold pStringBody
                simp +decide [unescape, ih]
              · by_cases h7 : c = '\x0d'
                · subst h7
                  have he : escapeChar '\x0d' = ['\\', 'r'] := rfl
                  rw [he]
                  unfold pStringBody
                  simp +decide [unescape, ih]
                · by_cases h8 : c.toNat < 32
                  · have he : escapeChar c = ['\\', 'u', '0', '0',
                        hexDigitChar (c.toNat / 16), hexDigitChar (c.toNat % 16)] := by
                      simp [escapeChar, h1, h2, h3, h4, h5, h6, h7, h8]
                    rw [he]
                    have hhi : c.toNat / 16 < 16 := by omega
                    have hlo : c.toNat % 16 < 16 := Nat.mod_lt _ (by omega)
                    have hchar : 4096 * 0 + 256 * 0 + 16 * (c.toNat / 16) +
                        c.toNat % 16 = c.toNat := by omega
                    unfold pStringBody
                    simp +decide [hex_round _ hhi, hex_round _ hlo, hexVal_zero,
                      ih, hchar, Char.ofNat_toNat]
                    rw [Nat.div_add_mod, Char.ofNat_toNat]
                  · have he : escapeChar c = [c] := by
                      simp [escapeChar, h1, h2, h3, h4, h5, h6, h7, h8]
                    rw [he]
                    unfold pStringBody
                    simp [h1, h2, ih]

theorem isDigit_ne_quote {c : Char} (h : c.isDigit = true) : ¬ (c = '"') := by
  intro hc
  subst hc
  exact absurd h (by decide)

theorem isDigit_not_ws {c : Char} (h : c.isDigit = true) : wsChar c = false := by
  unfold wsChar
  by_cases h1 : c = ' '
  · subst h1; exact absurd h (by decide)
  · by_cases h2 : c = '\n'
    · subst h2; exact absurd h (by decide)
    · by_cases h3 : c = '\t'
      · subst h3; exact absurd h (by decide)
      · by_cases h4 : c = '\r'
        · subst h4; exact absurd h (by decide)
        · simp [h1, h2, h3, h4]

theorem pVal_str (v tail : List Char) :
    pVal ('"' :: ((v.map escapeChar).flatten ++ '"' :: tail)) =
      some (JVal.jstr v, tail) := by
  unfold pVal
  simp [pStringBody_round]

theorem pVal_num (n : Nat) {c : Char} (tail : List Char) (hc : c.isDigit = false) :
    pVal (natToChars n ++ c :: tail) = some (JVal.jnum n, c :: tail) := by
  have hp : pNat (natToChars n ++ c :: tail) = some (n, c :: tail) :=
    pNat_round n (by
      intro c2 r2 he
      injection he with h1 _
      rw [← h1]
      exact hc)
  obtain ⟨d, ds, hsplit⟩ : ∃ d ds, natToChars n = d :: ds := by
    cases hn : natToChars n with
    | nil => exact absurd hn (natToChars_ne_nil n)
    | cons d ds => exact ⟨d, ds, rfl⟩
  have hd : d.isDigit = true := natToChars_digits n d (by rw [hsplit]; simp)
  rw [hsplit] at hp ⊢
  rw [List.cons_append] at hp ⊢
  unfold pVal
  simp [isDigit_ne_quote hd, hp]

theorem skipWs_rendered_num (n : Nat) (l : List Char) :
    skipWs (natToChars n ++ l) = natToChars n ++ l := by
  obtain ⟨d, ds, hsplit⟩ : ∃ d ds, natToChars n = d :: ds := by
    cases hn : natToChars n with
    | nil => exact absurd hn (natToChars_ne_nil n)
    | cons d ds => exact ⟨d, ds, rfl⟩
  have hd : d.isDigit = true := natToChars_digits n d (by rw [hsplit]; simp)
  rw [hsplit, List.cons_append]
  exact skipWs_not (isDigit_not_ws hd)

/-- A rendered value followed by a non-digit character parses back to
itself. -/
theorem pVal_after (v : JVal) {tail : List Char}
    (htail : ∀ c r2, tail = c :: r2 → c.isDigit = false) :
    pVal (skipWs (renderJVal v ++ tail)) = some (v, tail) := by
  cases v with
  | jstr sv =>
    have h1 : renderJVal (JVal.jstr sv) ++ tail =
        '"' :: ((sv.map escapeChar).flatten ++ '"' :: tail) := by
      simp [renderJVal, renderString]
    rw [h1, skipWs_not (by decide), pVal_str]
  | jnum n =>
    have h1 : renderJVal (JVal.jnum n) ++ tail = natToChars n ++ tail := rfl
    rw [h1, skipWs_rendered_num]
    cases tail with
    | nil =>
      obtain ⟨d, ds, hsplit⟩ : ∃ d ds, natToChars n = d :: ds := by
        cases hn : natToChars n with
        | nil => exact absurd hn (natToChars_ne_nil n)
        | cons d ds => exact ⟨d, ds, rfl⟩
      have hp : pNat (natToChars n ++ ([] : List Char)) = some (n, []) :=
        pNat_round n (by intro c2 r2 he; cases he)
      have hd : d.isDigit = true := natToChars_digits n d (by rw [hsplit]; simp)
      rw [hsplit] at hp ⊢
      rw [List.cons_append] at hp ⊢
      simp only [List.append_nil] at hp ⊢
      unfold pVal
      simp [isDigit_ne_quote hd, hp]
    | cons c r2 =>
      exact pVal_num n r2 (htail c r2 rfl)

theorem wsChar_space : wsChar ' ' = true := by decide
theorem wsChar_nl : wsChar '\n' = true := by decide

/-- Consuming one rendered field: the parser reads the key, the colon and
the value, then dispatches on the first non-blank character of the
remaining text. -/
theorem pFields_consume (fuel2 : Nat) (f : List Char × JVal) (pre T : List Char)
    (hpre : ∀ c ∈ pre, wsChar c = true)
    (hT : ∀ c r2, T = c :: r2 → c.isDigit = false) :
    pFields (fuel2 + 1) (pre ++ renderField f ++ T) =
      (match skipWs T with
       | [] => none
       | c3 :: r7 =>
         if c3 = ',' then
           match pFields fuel2 r7 with
           | some (flds, r8) => some (f :: flds, r8)
           | none => none
         else if c3 = '\x7d' then some ([f], r7)
         else none) := by
  have hinput : pre ++ renderField f ++ T =
      (pre ++ [' ', ' ', ' ', ' ']) ++
        '"' :: ((f.1.map escapeChar).flatten ++
          '"' :: ':' :: ' ' :: (renderJVal f.2 ++ T)) := by
    simp [renderField, renderString]
  rw [hinput]
  have hskip1 : skipWs ((pre ++ [' ', ' ', ' ', ' ']) ++
      '"' :: ((f.1.map escapeChar).flatten ++
        '"' :: ':' :: ' ' :: (renderJVal f.2 ++ T))) =
      '"' :: ((f.1.map escapeChar).flatten ++
        '"' :: ':' :: ' ' :: (renderJVal f.2 ++ T)) := by
    rw [skipWs_ws_head, skipWs_not (by decide)]
    intro c hc
    rcases List.mem_append.mp hc with h1 | h1
    · exact hpre c h1
    · simp at h1
      rw [h1]
      exact wsChar_space
  have hcolon : skipWs (':' :: ' ' :: (renderJVal f.2 ++ T)) =
      ':' :: ' ' :: (renderJVal f.2 ++ T) := skipWs_not (by decide)
  have hskip2 : skipWs (' ' :: (renderJVal f.2 ++ T)) =
      skipWs (renderJVal f.2 ++ T) := by
    rw [show (' ' :: (renderJVal f.2 ++ T)) = [' '] ++ (renderJVal f.2 ++ T) from rfl]
    exact skipWs_ws_head (by
      intro c hc
      simp at hc
      rw [hc]
      exact wsChar_space)
  conv_lhs => unfold pFields
  rw [hskip1]
  simp only [reduceIte, pStringBody_round, hcolon, hskip2, pVal_after f.2 hT]

theorem pFields_round :
    ∀ (flds : JObj) (fuel : Nat) (pre rest : List Char), flds ≠ [] →
    flds.length ≤ fuel → (∀ c ∈ pre, wsChar c = true) →
    pFields fuel (pre ++ joinSep [',', '\n'] (flds.map renderField) ++
      '\n' :: ' ' :: ' ' :: '\x7d' :: rest) = some (flds, rest) := by
  intro flds
  induction flds with
  | nil => intro fuel pre rest hne; exact absurd rfl hne
  | cons f tl ih =>
    intro fuel pre rest _ hlen hpre
    obtain ⟨fuel2, rfl⟩ : ∃ fuel2, fuel = fuel2 + 1 := by
      cases fuel with
      | zero => simp at hlen
      | succ m => exact ⟨m, rfl⟩
    cases tl with
    | nil =>
      have hinput : pre ++ joinSep [',', '\n'] ([f].map renderField) ++
          '\n' :: ' ' :: ' ' :: '\x7d' :: rest =
          pre ++ renderField f ++ ('\n' :: ' ' :: ' ' :: '\x7d' :: rest) := by
        simp [joinSep]
      rw [hinput, pFields_consume fuel2 f pre _ hpre
        (by intro c r2 he; injection he with h1 _; rw [← h1]; decide)]
      have hsk : skipWs ('\n' :: ' ' :: ' ' :: '\x7d' :: rest) = '\x7d' :: rest := by
        rw [show ('\n' :: ' ' :: ' ' :: '\x7d' :: rest) =
          ['\n', ' ', ' '] ++ ('\x7d' :: rest) from rfl]
        rw [skipWs_ws_head, skipWs_not (by decide)]
        intro c hc
        simp at hc
        rcases hc with rfl | rfl
        · exact wsChar_nl
        · exact wsChar_space
      rw [hsk]
      simp
    | cons g gs =>
      have hinput : pre ++ joinSep [',', '\n'] (((f :: g :: gs)).map renderField) ++
          '\n' :: ' ' :: ' ' :: '\x7d' :: rest =
          pre ++ renderField f ++
            (',' :: '\n' :: (joinSep [',', '\n'] ((g :: gs).map renderField) ++
              '\n' :: ' ' :: ' ' :: '\x7d' :: rest)) := by
        simp [joinSep]
      rw [hinput, pFields_consume fuel2 f pre _ hpre
        (by intro c r2 he; injection he with h1 _; rw [← h1]; decide)]
      rw [skipWs_not (by decide)]
      simp only [reduceIte]
      have hrec := ih fuel2 ['\n'] rest (by simp) (by simp at hlen ⊢; omega)
        (by intro c hc; simp at hc; rw [hc]; exact wsChar_nl)
      simp only [List.cons_append, List.nil_append, List.append_assoc] at hrec
      rw [hrec]

theorem skipWs_renderField_head (f : List Char × JVal) (X : List Char) :
    skipWs (renderField f ++ X) =
      '"' :: ((f.1.map escapeChar).flatten ++
        '"' :: ':' :: ' ' :: (renderJVal f.2 ++ X)) := by
  have h1 : renderField f ++ X =
      [' ', ' ', ' ', ' '] ++ '"' :: ((f.1.map escapeChar).flatten ++
        '"' :: ':' :: ' ' :: (renderJVal f.2 ++ X)) := by
    simp [renderField, renderString]
  rw [h1, skipWs_ws_head, skipWs_not (by decide)]
  intro c hc
  simp at hc
  rw [hc]
  exact wsChar_space

theorem joinFields_head (f : List Char × JVal) (tl : List (List Char × JVal))
    (extra : List Char) :
    ∃ q, skipWs (joinSep [',', '\n'] ((f :: tl).map renderField) ++ extra) =
      '"' :: q := by
  cases tl with
  | nil =>
    exact ⟨_, skipWs_renderField_head f extra⟩
  | cons g gs =>
    have h1 : joinSep [',', '\n'] ((f :: g :: gs).map renderField) ++ extra =
        renderField f ++ ([',', '\n'] ++
          (joinSep [',', '\n'] ((g :: gs).map renderField) ++ extra)) := by
      simp [joinSep]
    rw [h1]
    exact ⟨_, skipWs_renderField_head f _⟩

theorem pObj_round (o : JObj) (fuel : Nat) (pre tail : List Char) (ho : o ≠ [])
    (hlen : o.length ≤ fuel) (hpre : ∀ c ∈ pre, wsChar c = true) :
    pObj fuel (pre ++ renderObj o ++ tail) = some (o, tail) := by
  obtain ⟨f, tl, rfl⟩ : ∃ f tl, o = f :: tl := by
    cases o with
    | nil => exact absurd rfl ho
    | cons f tl => exact ⟨f, tl, rfl⟩
  have hinput : pre ++ renderObj (f :: tl) ++ tail =
      (pre ++ [' ', ' ']) ++ '\x7b' ::
        ('\n' :: (joinSep [',', '\n'] ((f :: tl).map renderField) ++
          '\n' :: ' ' :: ' ' :: '\x7d' :: tail)) := by
    simp [renderObj]
  rw [hinput]
  unfold pObj
  have hs1 : skipWs ((pre ++ [' ', ' ']) ++ '\x7b' ::
      ('\n' :: (joinSep [',', '\n'] ((f :: tl).map renderField) ++
        '\n' :: ' ' :: ' ' :: '\x7d' :: tail))) =
      '\x7b' :: ('\n' :: (joinSep [',', '\n'] ((f :: tl).map renderField) ++
        '\n' :: ' ' :: ' ' :: '\x7d' :: tail)) := by
    rw [skipWs_ws_head, skipWs_not (by decide)]
    intro c hc
    rcases List.mem_append.mp hc with h1 | h1
    · exact hpre c h1
    · simp at h1
      rw [h1]
      exact wsChar_space
  rw [hs1]
  simp only [reduceIte]
  obtain ⟨q, hq⟩ := joinFields_head f tl ('\n' :: ' ' :: ' ' :: '\x7d' :: tail)
  have hs2 : skipWs ('\n' :: (joinSep [',', '\n'] ((f :: tl).map renderField) ++
      '\n' :: ' ' :: ' ' :: '\x7d' :: tail)) = '"' :: q := by
    rw [show ('\n' :: (joinSep [',', '\n'] ((f :: tl).map renderField) ++
      '\n' :: ' ' :: ' ' :: '\x7d' :: tail)) = ['\n'] ++
      (joinSep [',', '\n'] ((f :: tl).map renderField) ++
        '\n' :: ' ' :: ' ' :: '\x7d' :: tail) from rfl]
    rw [skipWs_ws_head (by intro c hc; simp at hc; rw [hc]; exact wsChar_nl)]
    exact hq
  rw [hs2]
  have hrec := pFields_round (f :: tl) fuel ['\n'] tail (by simp) hlen
    (by intro c hc; simp at hc; rw [hc]; exact wsChar_nl)
  simp only [List.cons_append, List.nil_append, List.map_cons] at hrec
  simp +decide [hrec]

theorem pObjs_round :
    ∀ (objs : List JObj) (fuel : Nat) (pre rest : List Char), objs ≠ [] →
    objs.length ≤ fuel →
    (∀ o ∈ objs, o ≠ [] ∧ o.length + objs.length ≤ fuel) →
    (∀ c ∈ pre, wsChar c = true) →
    pObjs fuel (pre ++ joinSep [',', '\n'] (objs.map renderObj) ++
      '\n' :: ']' :: rest) = some (objs, rest) := by
  intro objs
  induction objs with
  | nil => intro fuel pre rest hne; exact absurd rfl hne
  | cons o tl ih =>
    intro fuel pre rest _ hcount hfld hpre
    obtain ⟨fuel2, rfl⟩ : ∃ fuel2, fuel = fuel2 + 1 := by
      cases fuel with
      | zero => simp at hcount
      | succ m => exact ⟨m, rfl⟩
    have ho := hfld o (by simp)
    have holen : o.length ≤ fuel2 := by
      have := ho.2
      simp at this ⊢
      omega
    cases tl with
    | nil =>
      have hinput : pre ++ joinSep [',', '\n'] ([o].map renderObj) ++
          '\n' :: ']' :: rest =
          pre ++ renderObj o ++ ('\n' :: ']' :: rest) := by
        simp [joinSep]
      rw [hinput]
      unfold pObjs
      rw [pObj_round o fuel2 pre _ ho.1 holen hpre]
      have hsk : skipWs ('\n' :: ']' :: rest) = ']' :: rest := by
        rw [show ('\n' :: ']' :: rest) = ['\n'] ++ (']' :: rest) from rfl]
        rw [skipWs_ws_head (by intro c hc; simp at hc; rw [hc]; exact wsChar_nl)]
        exact skipWs_not (by decide)
      simp +decide [hsk]
    | cons g gs =>
      have hinput : pre ++ joinSep [',', '\n'] ((o :: g :: gs).map renderObj) ++
          '\n' :: ']' :: rest =
          pre ++ renderObj o ++
            (',' :: '\n' :: (joinSep [',', '\n'] ((g :: gs).map renderObj) ++
              '\n' :: ']' :: rest)) := by
        simp [joinSep]
      rw [hinput]
      unfold pObjs
      rw [pObj_round o fuel2 pre _ ho.1 holen hpre]
      have hsk2 : ∀ r : List Char, skipWs (',' :: r) = ',' :: r :=
        fun r => skipWs_not (by decide)
      have hrec := ih fuel2 ['\n'] rest (by simp)
        (by simp at hcount ⊢; omega)
        (by
          intro o2 ho2
          have := hfld o2 (by simp [ho2])
          refine ⟨this.1, ?_⟩
          have h2 := this.2
          simp at h2 ⊢
          omega)
        (by intro c hc; simp at hc; rw [hc]; exact wsChar_nl)
      simp only [List.cons_append, List.nil_append, List.append_assoc,
        List.map_cons] at hrec
      simp +decide [hsk2, hrec]

/-! ### Fuel accounting: the input is always long enough -/

theorem joinSep_len_weighted {sep : List Char} {k : Nat} :
    ∀ (parts : List (List Char)), (∀ x ∈ parts, k ≤ x.length) →
    k * parts.length ≤ (joinSep sep parts).length := by
  intro parts
  induction parts with
  | nil => intro _; simp
  | cons x tl ih =>
    intro hall
    cases tl with
    | nil =>
      have := hall x (by simp)
      simp [joinSep]
      omega
    | cons y ys =>
      have h1 := hall x (by simp)
      have h2 := ih (fun z hz => hall z (by simp at hz ⊢; tauto))
      simp only [joinSep, List.length_append, List.length_cons] at *
      have : k * (y :: ys).length ≤ (joinSep sep (y :: ys)).length := h2
      simp at this ⊢
      ring_nf
      ring_nf at this
      omega

theorem renderField_len_one (f : List Char × JVal) : 1 ≤ (renderField f).length := by
  simp [renderField]

theorem renderObj_len_nine {o : JObj} (ho : o ≠ []) : 9 ≤ (renderObj o).length := by
  have hjoin : 1 * (o.map renderField).length ≤
      (joinSep [',', '\n'] (o.map renderField)).length :=
    joinSep_len_weighted _ (by
      intro x hx
      rcases List.mem_map.mp hx with ⟨f, _, rfl⟩
      exact renderField_len_one f)
  have hcount : 1 ≤ o.length := by
    cases o with
    | nil => exact absurd rfl ho
    | cons a b => simp
  simp only [renderObj, if_neg ho, List.length_append, List.length_cons]
  simp at hjoin ⊢
  omega

theorem encodeNode_ne_nil (n : Node) : encodeNode n ≠ [] := by
  simp [encodeNode]

theorem encodeNode_len_le (n : Node) : (encodeNode n).length ≤ 7 := by
  rcases n with ⟨i, nm, ty, pa, u, a, o⟩
  cases u <;> cases a <;> cases o <;> simp [encodeNode]

/-- The whole export parses back to the encoded records. -/
theorem jsonParse_renderStore (s : Store) :
    jsonParse (renderStore s) = some (s.map encodeNode) := by
  cases s with
  | nil => rfl
  | cons n tl =>
    have hne : (n :: tl) ≠ ([] : Store) := by simp
    set objs : List JObj := (n :: tl).map encodeNode with hobjs
    have hmapmap : (n :: tl).map (fun m => renderObj (encodeNode m)) =
        objs.map renderObj := by
      rw [hobjs, List.map_map]
      rfl
    have hrender : renderStore (n :: tl) =
        '[' :: '\n' :: (joinSep [',', '\n'] (objs.map renderObj) ++
          '\n' :: ']' :: []) := by
      simp only [renderStore, if_neg hne, hmapmap]
      simp
    -- fuel accounting
    set fuel := (renderStore (n :: tl)).length with hfuel
    have hcount1 : 1 ≤ objs.length := by rw [hobjs]; simp
    have hjlen : 9 * objs.length ≤
        (joinSep [',', '\n'] (objs.map renderObj)).length := by
      have := @joinSep_len_weighted [',', '\n'] 9
        (objs.map renderObj) (by
          intro x hx
          rcases List.mem_map.mp hx with ⟨o, hoin, rfl⟩
          refine renderObj_len_nine ?_
          rw [hobjs] at hoin
          rcases List.mem_map.mp hoin with ⟨m, _, rfl⟩
          exact encodeNode_ne_nil m)
      simpa using this
    have hfuelbig : 4 + (joinSep [',', '\n'] (objs.map renderObj)).length ≤ fuel := by
      rw [hfuel, hrender]
      simp
      omega
    have hcount : objs.length ≤ fuel := by omega
    have hofld : ∀ o ∈ objs, o ≠ [] ∧ o.length + objs.length ≤ fuel := by
      intro o hoin
      have honil : o ≠ [] := by
        rw [hobjs] at hoin
        rcases List.mem_map.mp hoin with ⟨m, _, rfl⟩
        exact encodeNode_ne_nil m
      have holen : o.length ≤ 7 := by
        rw [hobjs] at hoin
        rcases List.mem_map.mp hoin with ⟨m, _, rfl⟩
        exact encodeNode_len_le m
      exact ⟨honil, by omega⟩
    obtain ⟨o2, tl2, hobjs2⟩ : ∃ o2 tl2, objs = o2 :: tl2 := by
      cases hobjs3 : objs with
      | nil => rw [hobjs3] at hcount1; simp at hcount1
      | cons a b => exact ⟨a, b, rfl⟩
    obtain ⟨q, hq⟩ : ∃ q,
        skipWs (joinSep [',', '\n'] (objs.map renderObj) ++ '\n' :: ']' :: []) =
        '\x7b' :: q := by
      rw [hobjs2]
      have ho2 := hofld o2 (by rw [hobjs2]; simp)
      obtain ⟨f, ftl, hf⟩ : ∃ f ftl, o2 = f :: ftl := by
        cases ho4 : o2 with
        | nil => exact absurd ho4 ho2.1
        | cons f ftl => exact ⟨f, ftl, rfl⟩
      cases tl2 with
      | nil =>
        refine ⟨'\n' :: (joinSep [',', '\n'] (o2.map renderField) ++
          '\n' :: ' ' :: ' ' :: '\x7d' :: ('\n' :: ']' :: [])), ?_⟩
        have h1 : joinSep [',', '\n'] ([o2].map renderObj) ++ '\n' :: ']' :: [] =
            (([' ', ' '] : List Char)) ++ '\x7b' ::
              ('\n' :: (joinSep [',', '\n'] (o2.map renderField) ++
                '\n' :: ' ' :: ' ' :: '\x7d' :: ('\n' :: ']' :: []))) := by
          rw [hf]
          simp [joinSep, renderObj]
        rw [h1, skipWs_ws_head (by intro c hc; simp at hc; rw [hc]; exact wsChar_space)]
        exact skipWs_not (by decide)
      | cons p ps =>
        refine ⟨'\n' :: (joinSep [',', '\n'] (o2.map renderField) ++
          '\n' :: ' ' :: ' ' :: '\x7d' ::
            (',' :: '\n' :: (joinSep [',', '\n'] ((p :: ps).map renderObj) ++
              '\n' :: ']' :: []))), ?_⟩
        have h1 : joinSep [',', '\n'] ((o2 :: p :: ps).map renderObj) ++
            '\n' :: ']' :: [] =
            (([' ', ' '] : List Char)) ++ '\x7b' ::
              ('\n' :: (joinSep [',', '\n'] (o2.map renderField) ++
                '\n' :: ' ' :: ' ' :: '\x7d' ::
                  (',' :: '\n' :: (joinSep [',', '\n'] ((p :: ps).map renderObj) ++
                    '\n' :: ']' :: [])))) := by
          rw [hf]
          simp [joinSep, renderObj]
        rw [h1, skipWs_ws_head (by intro c hc; simp at hc; rw [hc]; exact wsChar_space)]
        exact skipWs_not (by decide)
    have hs2 : skipWs ('\n' :: (joinSep [',', '\n'] (objs.map renderObj) ++
        '\n' :: ']' :: [])) = '\x7b' :: q := by
      rw [show ('\n' :: (joinSep [',', '\n'] (objs.map renderObj) ++
        '\n' :: ']' :: [])) = ['\n'] ++ (joinSep [',', '\n'] (objs.map renderObj) ++
        '\n' :: ']' :: []) from rfl]
      rw [skipWs_ws_head (by intro c hc; simp at hc; rw [hc]; exact wsChar_nl)]
      exact hq
    have hrec := pObjs_round objs fuel ['\n'] [] (by rw [hobjs2]; simp)
      hcount hofld (by intro c hc; simp at hc; rw [hc]; exact wsChar_nl)
    simp only [List.cons_append, List.nil_append] at hrec
    rw [hfuel, hrender] at hrec
    simp only [List.length_cons, List.length_append, List.length_nil] at hrec
    have hsk0 : ∀ r : List Char, skipWs ('[' :: r) = '[' :: r :=
      fun r => skipWs_not (by decide)
    unfold jsonParse
    rw [hrender]
    simp +decide [hsk0, hs2, hrec, show skipWs ([] : List Char) = [] from rfl]

theorem decodeNode_encodeNode (n : Node) : decodeNode (encodeNode n) = some n := by
  rcases n with ⟨i, nm, ty, pa, u, a, o⟩
  cases u <;> cases a <;> cases o <;> rfl

theorem mapM_loop_decodeNode :
    ∀ (s : Store) (acc : List Node),
    List.mapM.loop decodeNode (s.map encodeNode) acc = some (acc.reverse ++ s) := by
  intro s
  induction s with
  | nil => intro acc; simp [List.mapM.loop]
  | cons n tl ih =>
    intro acc
    rw [List.map_cons]
    show (match decodeNode (encodeNode n) with
      | some b => List.mapM.loop decodeNode (tl.map encodeNode) (b :: acc)
      | none => none) = _
    rw [decodeNode_encodeNode n]
    simp [ih (n :: acc)]

theorem mapM_decodeNode (s : Store) :
    (s.map encodeNode).mapM decodeNode = some s := by
  induction s with
  | nil => rfl
  | cons n tl ih =>
    rw [List.map_cons, List.mapM_cons, decodeNode_encodeNode n, ih]
    rfl

/-- Claim C3 (amended): importing the exported text succeeds and restores
exactly the original store — same records, hence same ids, names, urls,
parent and order fields — provided the format sniffing of
`handleFileImport` (script.js:1287-1289) does not misroute the text to
the Chrome-markup branch (filename not ending `.html`, text not starting
`<!DOCTYPE` and containing neither `<DT>` nor `<DL>`). -/
theorem handleFileImport_export (gen : Nat → String) (fileName : List Char)
    (s : Store)
    (hdet : (endsWithList fileName (".html".data)
      || startsWithList (trimChars (exportBookmarks s)) ("<!DOCTYPE".data)
      || containsSub (exportBookmarks s) ("<DT>".data)
      || containsSub (exportBookmarks s) ("<DL>".data)) = false) :
    handleFileImport gen fileName (exportBookmarks s) = Except.ok s := by
  unfold handleFileImport
  rw [hdet]
  simp only [Bool.false_eq_true, if_false]
  rw [show exportBookmarks s = renderStore s from rfl, jsonParse_renderStore s]
  simp [mapM_loop_decodeNode]

/-! ## Concrete example data for the claims -/

def folderA : Node := { id := "A", name := "A", type := "folder", parent := "" }

def linkX : Node :=
  { id := "X", name := "X", type := "link", parent := "A",
    url := some "https://x.test" }

def storeC1 : Store := [folderA, linkX]

def nodeF1 : Node := { id := "1", name := "Folder1", type := "folder", parent := "" }

def nodeL2 : Node :=
  { id := "2", name := "LinkA", type := "link", parent := "1", url := some "u2" }

def nodeF3 : Node := { id := "3", name := "Folder3", type := "folder", parent := "" }

def nodeL4 : Node :=
  { id := "4", name := "LinkB", type := "link", parent := "3", url := some "u4" }

/-- The default store shape: two root folders, a link in each. -/
def storeW : Store := [nodeF1, nodeL2, nodeF3, nodeL4]

/-- A two-node parent cycle that never reaches root. -/
def nodeCycA : Node := { id := "a", name := "a", type := "folder", parent := "b" }

def nodeCycB : Node := { id := "b", name := "b", type := "folder", parent := "a" }

def storeCyc : Store := [nodeCycA, nodeCycB]

def storeC7 : Store :=
  [{ id := "A", name := "A", type := "folder", parent := "" },
   { id := "B", name := "B", type := "folder", parent := "" }]

def nodeDangling : Node :=
  { id := "d", name := "d", type := "link", parent := "ghost", url := some "u" }

def storeC9 : Store :=
  [{ id := "r", name := "r", type := "folder", parent := "" }, nodeDangling]

def gen6 (n : Nat) : String := String.mk ('f' :: natToChars n)

def markupC6 : List Char :=
  "<DL><DT><H3>Dev</H3><DL><DT><A HREF=\"https://x.test\">X</A></DL></DL>".data

/-! ## Claim theorems -/

/-- Claim C1 (code bug): the drop handler runs the `isDescendant` guard
only when the drop target is a folder (script.js:668-672).  Dropping the
folder `A` onto the link `X` that lives inside `A` reparents `A` to
`X.parent = "A"`, i.e. to itself: the candidate new parent equals the
moved node, yet the move is accepted and the store's acyclicity is
destroyed — the guard the spec requires before every accepted reparent is
skipped for non-folder targets. -/
theorem handleDrop_breaks_acyclicity :
    linkX.type ≠ "folder" ∧
    isDescendant storeC1 linkX.id folderA.id = true ∧
    acyclicB storeC1 = true ∧
    handleDrop storeC1 (some linkX) "" "A" ≠ storeC1 ∧
    acyclicB (handleDrop storeC1 (some linkX) "" "A") = false := by decide

/-- Claim C6 (code bug): on the spec's own example markup the Chrome
parser reaches the first accepted `<A>` entry and throws the
`ReferenceError` of script.js:1256 (`currentFolderId` is referenced but
declared nowhere), instead of producing the folder and the link; the whole
file import surfaces it as a failed import. -/
theorem parseChromeBookmarks_refError :
    parseChromeBookmarks gen6 (domParse markupC6) = Except.error refErrMsg ∧
    handleFileImport gen6 ("bookmarks.html".data) markupC6 =
      Except.error ImportError.refErr := by decide

/-- Claim C7, counterexample: with folders `A` and `B` live and the stored
cursor `[A, X, B]` whose middle entry resolves to nothing, restoration
keeps `B` — the entry after the first invalid one survives, so the
spec's truncation at the first invalid entry does not happen. -/
theorem restore_keeps_entry_after_invalid :
    storeC7.find? (fun b => b.id == "X" && b.type == "folder") = none ∧
    restoreNavigationState [("A", "A"), ("X", "X"), ("B", "B")] storeC7 =
      [("A", "A"), ("B", "B")] := by decide

theorem restore_ids (p : List (String × String)) (s : Store) :
    (restoreNavigationState p s).map Prod.fst =
      (p.filter (fun fd =>
        (s.find? (fun b => b.id == fd.1 && b.type == "folder")).isSome)).map
        Prod.fst := by
  induction p with
  | nil => rfl
  | cons fd rest ih =>
    unfold restoreNavigationState at ih ⊢
    rw [List.filterMap_cons, List.filter_cons]
    cases hf : s.find? (fun b => b.id == fd.1 && b.type == "folder") with
    | none => simpa [hf] using ih
    | some folder =>
      have hid : folder.id = fd.1 := by
        have := List.find?_some hf
        simp at this
        exact this.1
      simp [hf, hid, ih]

/-- Claim C7 (amended): restoration is a filter, not a truncation — it
acts entry by entry (it distributes over concatenation of the stored
path), and the surviving ids are exactly the ids of the entries that
resolve to a live folder, wherever in the path an unresolvable entry
sits. -/
theorem restoreNavigationState_filters (p1 p2 : List (String × String))
    (s : Store) :
    restoreNavigationState (p1 ++ p2) s =
      restoreNavigationState p1 s ++ restoreNavigationState p2 s ∧
    (restoreNavigationState (p1 ++ p2) s).map Prod.fst =
      ((p1 ++ p2).filter (fun fd =>
        (s.find? (fun b => b.id == fd.1 && b.type == "folder")).isSome)).map
        Prod.fst :=
  ⟨List.filterMap_append p1 p2 _, restore_ids (p1 ++ p2) s⟩

/-- Claim C9, counterexample: the node `d` has the dangling parent id
`"ghost"` (no such node exists), yet the root listing does not contain it
— `getItemsByParent` filters by the literal parent id only, so a dangling
parent is not treated as root. -/
theorem dangling_parent_not_at_root :
    lookup storeC9 "ghost" = none ∧
    nodeDangling ∈ storeC9 ∧
    nodeDangling.parent ≠ "" ∧
    nodeDangling ∉ getItemsByParent storeC9 "" := by decide

/-- Claim C9 (amended): traversal reads the parent field literally and
tolerantly — a node with a non-empty (possibly dangling) parent id never
appears in the root listing, and it appears in the child listing of
exactly its stored parent id; the stored field itself is never rewritten
(the traversal returns store members unchanged). -/
theorem getItemsByParent_literal_only (s : Store) (x : Node) (hx : x ∈ s)
    (hne : x.parent ≠ "") :
    x ∉ getItemsByParent s "" ∧
    (∀ pid, x ∈ getItemsByParent s pid ↔ x.parent = pid) := by
  constructor
  · intro hmem
    exact hne (mem_getItemsByParent.mp hmem).2
  · intro pid
    constructor
    · intro hmem
      exact (mem_getItemsByParent.mp hmem).2
    · intro hp
      exact mem_getItemsByParent.mpr ⟨hx, hp⟩

theorem getItemsByParent_literal_only_witness :
    nodeDangling ∉ getItemsByParent storeC9 "" :=
  (getItemsByParent_literal_only storeC9 nodeDangling (by decide) (by decide)).1

theorem walk_cycle_stuck : ∀ fuel,
    walk fuel storeCyc "a" "z" = none ∧ walk fuel storeCyc "b" "z" = none := by
  intro fuel
  induction fuel with
  | zero => exact ⟨rfl, rfl⟩
  | succ n ih => exact ⟨ih.2, ih.1⟩

/-- Claim C10: on an acyclic store the `isDescendant` recursion always
terminates — `s.length + 1` parent lookups suffice for every pair of ids
(the fueled embedding returns an answer) — while on the two-node parent
cycle `storeCyc`, which never reaches root, no amount of fuel produces an
answer: the JS recursion would run forever. -/
theorem isDescendant_total (s : Store) (hac : Acyclic s) (a b : String) :
    (walk (s.length + 1) s a b).isSome = true ∧
    (∀ fuel, walk fuel storeCyc "a" "z" = none) :=
  ⟨walk_total hac a b, fun fuel => (walk_cycle_stuck fuel).1⟩

theorem isDescendant_total_witness :
    (walk (storeW.length + 1) storeW "4" "1").isSome = true :=
  (isDescendant_total storeW (acyclicB_sound (by decide)) "4" "1").1

/-- Claim C2: on a well-formed store, deleting any node `F` removes `F`
and its entire subtree — no surviving node is `F` or has `F.id` on its
parent chain, neither in the original store's chains nor in the shrunken
store's — while every node outside `F`'s subtree survives unchanged, and
the result is a sub-sequence of the original array. -/
theorem deleteItem_cascade (s : Store) (F : Node) (hwf : WF s) (hF : F ∈ s) :
    (∀ x ∈ deleteItem F.id s, ¬ InSubtree s F.id x.id) ∧
    (∀ x ∈ deleteItem F.id s, ¬ Desc (deleteItem F.id s) x.id F.id) ∧
    (∀ x ∈ s, ¬ InSubtree s F.id x.id → x ∈ deleteItem F.id s) ∧
    (deleteItem F.id s).Sublist s := by
  obtain ⟨hnd, hnee, hac⟩ := hwf
  have hFid : F.id ≠ "" := hnee F hF
  have hsub : (deleteItem F.id s).Sublist s := deleteRec_sublist s.length F.id s
  have hmain : ∀ x ∈ deleteItem F.id s, ¬ InSubtree s F.id x.id := by
    intro x hx hins
    rcases hins with heq | hdesc
    · exact deleteRec_id_ne hx heq
    · obtain ⟨l, hc⟩ := hdesc
      have hxs : x ∈ s := hsub.subset hx
      exact deleteRec_complete s.length F.id s x l hnd hnee hac hxs hc
        (chain_length_le hac hc) hx
  refine ⟨hmain, ?_, ?_, hsub⟩
  · intro x hx hdesc
    obtain ⟨l, hc⟩ := hdesc
    exact hmain x hx (Or.inr ⟨l, chain_lift hnd hsub hc⟩)
  · intro x hx hnin
    exact deleteRec_survives s.length F.id s x hnd hnee hx
      (fun h => hnin (Or.inl h)) hFid (fun h => hnin (Or.inr h))

theorem deleteItem_cascade_witness :
    deleteItem nodeF3.id storeW = [nodeF1, nodeL2] ∧
    (deleteItem nodeF3.id storeW).Sublist storeW :=
  ⟨by decide,
   (deleteItem_cascade storeW nodeF3
     ⟨by decide, by decide, acyclicB_sound (by decide)⟩ (by decide)).2.2.2⟩

def genId (n : Nat) : String := String.mk ('g' :: natToChars n)

def storeC3good : Store :=
  [{ id := "1", name := "Alpha \"quoted\"", type := "folder", parent := "" },
   { id := "2", name := "B\x01eta", type := "link", parent := "1",
     url := some "https://e.test", accessTime := some 12, order := some 0 }]

def storeC3bad : Store :=
  [{ id := "1", name := "<DL>", type := "link", parent := "", url := some "u" }]

/-- Claim C3, counterexample: a store holding a bookmark named `<DL>` is
not a fixed point of export-then-import — the exported JSON contains the
substring `<DL>`, the format sniffing of `handleFileImport` therefore
routes it to the Chrome-markup parser, and the import fails outright
instead of reproducing the store. -/
theorem import_export_not_fixed :
    handleFileImport genId ("bookmarks.json".data) (exportBookmarks storeC3bad) =
      Except.error ImportError.noHtmlBookmarks := by
  decide

set_option maxRecDepth 4000 in
theorem handleFileImport_export_witness :
    (endsWithList ("bookmarks.json".data) (".html".data)
      || startsWithList (trimChars (exportBookmarks storeC3good)) ("<!DOCTYPE".data)
      || containsSub (exportBookmarks storeC3good) ("<DT>".data)
      || containsSub (exportBookmarks storeC3good) ("<DL>".data)) = false ∧
    handleFileImport genId ("bookmarks.json".data) (exportBookmarks storeC3good) =
      Except.ok storeC3good :=
  ⟨by decide,
   handleFileImport_export genId ("bookmarks.json".data) storeC3good (by decide)⟩

def storeC4 : Store :=
  [{ id := "a1", name := "A1", type := "link", parent := "", url := some "u",
     accessTime := some 5 },
   { id := "b1", name := "B1", type := "link", parent := "", url := some "u",
     accessTime := some 9 },
   { id := "c1", name := "C1", type := "link", parent := "", url := some "u" },
   { id := "d1", name := "other", type := "folder", parent := "" }]

def storeC4b : Store :=
  [{ id := "z", name := "Zeta", type := "link", parent := "", url := some "u" },
   { id := "al", name := "Alpha", type := "link", parent := "", url := some "u" }]

/-- Claim C4: the empty query returns the empty list; a non-empty query
returns exactly the nodes of the whole flat store (folders and links
alike) whose name contains the query case-insensitively, arranged
consistently with the comparator "accessTime descending (missing counts
as 0), ties by name ascending"; on the spec's examples the matching links
with access times 9, 5 and none come back `[B1, A1, C1]`, and two
never-visited matches come back `[Alpha, Zeta]`. -/
theorem searchBookmarks_ranking (s : Store) (query : String) :
    searchBookmarks "" s = [] ∧
    (query ≠ "" →
      (searchBookmarks query s).Perm
        (s.filter (fun item =>
          containsSub (lowerChars item.name.data) (lowerChars query.data))) ∧
      (searchBookmarks query s).Pairwise (fun a b => searchLe a b = true)) ∧
    (searchBookmarks "1" storeC4).map (fun n => n.name) = ["B1", "A1", "C1"] ∧
    (searchBookmarks "a" storeC4b).map (fun n => n.name) = ["Alpha", "Zeta"] := by
  refine ⟨by simp [searchBookmarks], fun hq => ⟨?_, ?_⟩, by decide, by decide⟩
  · unfold searchBookmarks
    rw [if_neg hq]
    exact sortLe_perm _ _
  · unfold searchBookmarks
    rw [if_neg hq]
    exact sortLe_pairwise (fun a b c => searchLe_trans a b c)
      (fun a b => searchLe_total a b) _

theorem searchBookmarks_ranking_witness :
    (searchBookmarks "b" storeC4).Perm
      (storeC4.filter (fun item =>
        containsSub (lowerChars item.name.data) (lowerChars "b".data))) ∧
    (searchBookmarks "b" storeC4).Pairwise (fun a b => searchLe a b = true) :=
  (searchBookmarks_ranking storeC4 "b").2.1 (by decide)

def pathC8 : List (String × String) :=
  [("1", "a"), ("2", "b"), ("3", "c"), ("4", "d"), ("5", "e"),
   ("6", "f"), ("7", "g"), ("8", "h"), ("9", "i")]

def folderC8 : Node := { id := "10", name := "j", type := "folder", parent := "9" }

/-- Claim C8: descending into a folder at a pane level at or beyond
`MAX_LEVELS` fails and leaves `currentPath` exactly as it was; below the
bound it succeeds, truncating the cursor to the levels above and
appending the folder's `(id, name)` entry, so that a successful descent
from a full cursor at level `currentLevel` leaves a cursor of exactly
`currentLevel` entries; the deepest click that succeeds is at level
`MAX_LEVELS - 1` and one level deeper fails. -/
theorem navigateToFolder_depth (currentPath : List (String × String))
    (folder : Node) (currentLevel : Nat) :
    ((navigateToFolder currentPath folder currentLevel).1 = true ↔
      currentLevel < MAX_LEVELS) ∧
    (MAX_LEVELS ≤ currentLevel →
      navigateToFolder currentPath folder currentLevel = (false, currentPath)) ∧
    (currentLevel < MAX_LEVELS →
      navigateToFolder currentPath folder currentLevel =
        (true, jsSliceTo currentPath ((currentLevel : Int) - 1) ++
          [(folder.id, folder.name)])) ∧
    (currentLevel < MAX_LEVELS → 1 ≤ currentLevel →
      currentLevel ≤ currentPath.length →
      (navigateToFolder currentPath folder currentLevel).2.length =
        currentLevel) := by
  by_cases h : MAX_LEVELS ≤ currentLevel
  · refine ⟨?_, fun _ => ?_, fun h2 => absurd h2 (by omega),
      fun h2 => absurd h2 (by omega)⟩
    · unfold navigateToFolder
      rw [if_pos h]
      simp
      omega
    · unfold navigateToFolder
      rw [if_pos h]
  · have hlt : currentLevel < MAX_LEVELS := by omega
    refine ⟨?_, fun h2 => absurd h2 (by omega), fun _ => ?_, fun _ h1 h2 => ?_⟩
    · unfold navigateToFolder
      rw [if_neg h]
      simp [hlt]
    · unfold navigateToFolder
      rw [if_neg h]
    · unfold navigateToFolder
      rw [if_neg h]
      unfold jsSliceTo
      rw [if_neg (by omega)]
      simp only [List.length_append, List.length_take, List.length_cons,
        List.length_nil]
      have he : ((currentLevel : Int) - 1).toNat = currentLevel - 1 := by omega
      rw [he, Nat.min_eq_left (by omega)]
      omega

/-! ## Reorder stability (claim C5)

`reorderBookmark` rebuilds the sibling sequence (dragged node removed,
re-inserted before the target) and stamps `order := index` along it.
When the dragged node was already immediately before the target,
the rebuilt sequence is the old one, so re-sorting the stamped store
leaves the child id-sequence unchanged.  `orderStamp` names the stamped
sequence; uniqueness of a sorted permutation with injective keys closes
the argument. -/

theorem perm_pairwise_eq {α : Type} {R : α → α → Prop} :
    ∀ (l1 l2 : List α), l1.Perm l2 → l1.Pairwise R → l2.Pairwise R →
    (∀ a ∈ l1, ∀ b ∈ l1, R a b → R b a → a = b) → l1 = l2 := by
  intro l1
  induction l1 with
  | nil =>
    intro l2 hp _ _ _
    exact (hp.symm.eq_nil).symm
  | cons a t ih =>
    intro l2 hp h1 h2 hanti
    have ha2 : a ∈ l2 := hp.subset (List.mem_cons_self a t)
    obtain ⟨u, w, rfl⟩ := List.append_of_mem ha2
    cases u with
    | nil =>
      simp only [List.nil_append] at hp h2 ⊢
      have hperm : t.Perm w := (List.perm_cons a).mp hp
      rw [ih w hperm (List.pairwise_cons.mp h1).2 (List.pairwise_cons.mp h2).2
        (fun x hx y hy => hanti x (List.mem_cons_of_mem a hx) y
          (List.mem_cons_of_mem a hy))]
    | cons b u2 =>
      rw [List.cons_append] at hp h2 ⊢
      by_cases hba : b = a
      · subst hba
        have hperm : t.Perm (u2 ++ b :: w) := (List.perm_cons b).mp hp
        rw [ih (u2 ++ b :: w) hperm (List.pairwise_cons.mp h1).2
          (List.pairwise_cons.mp h2).2
          (fun x hx y hy => hanti x (List.mem_cons_of_mem b hx) y
            (List.mem_cons_of_mem b hy))]
      · have hbl1 : b ∈ a :: t := hp.mem_iff.mpr (List.mem_cons_self b _)
        have hbt : b ∈ t := by
          rcases List.mem_cons.mp hbl1 with h | h
          · exact absurd h hba
          · exact h
        have hRab : R a b := (List.pairwise_cons.mp h1).1 b hbt
        have hRba : R b a := (List.pairwise_cons.mp h2).1 a (by simp)
        exact absurd (hanti a (List.mem_cons_self a t) b
          (List.mem_cons_of_mem a hbt) hRab hRba) (fun he => hba he.symm)

theorem findIdxA_first {α : Type} (p : α → Bool) :
    ∀ (u : List α) (a : α) (v : List α), (∀ x ∈ u, p x = false) → p a = true →
    findIdxA p (u ++ a :: v) = some u.length := by
  intro u
  induction u with
  | nil =>
    intro a v _ ha
    simp [findIdxA, ha]
  | cons y u2 ih =>
    intro a v hu ha
    rw [List.cons_append]
    show (if p y = true then some 0 else (findIdxA p (u2 ++ a :: v)).map (· + 1)) =
      some (y :: u2).length
    rw [if_neg (by simp [hu y (List.mem_cons_self y u2)]),
      ih a v (fun x hx => hu x (List.mem_cons_of_mem y hx)) ha]
    rfl

theorem insertIdx_at_len {α : Type} : ∀ (u : List α) (x : α) (w : List α),
    (u ++ w).insertIdx u.length x = u ++ x :: w := by
  intro u x
  induction u with
  | nil => intro w; rfl
  | cons a u2 ih =>
    intro w
    rw [List.cons_append, List.length_cons]
    show a :: (u2 ++ w).insertIdx u2.length x = a :: (u2 ++ x :: w)
    rw [ih w]

/-- One assignment of the `forEach` of script.js:843-851: sibling at
index `i` gets `order := i`; the dragged one also gets its parent set. -/
def stampD (draggedId parentId : String) (x : Node) (i : Nat) : Node :=
  if x.id == draggedId then { x with order := some i, parent := parentId }
  else { x with order := some i }

/-- The arranged sibling list after the whole `forEach`. -/
def orderStamp (draggedId parentId : String) : Nat → List Node → List Node
  | _, [] => []
  | i, x :: l =>
    stampD draggedId parentId x i :: orderStamp draggedId parentId (i + 1) l

theorem stampD_id (dId pId : String) (x : Node) (i : Nat) :
    (stampD dId pId x i).id = x.id := by
  unfold stampD
  split <;> rfl

theorem stampD_order (dId pId : String) (x : Node) (i : Nat) :
    (stampD dId pId x i).order = some i := by
  unfold stampD
  split <;> rfl

theorem orderStamp_id (dId pId : String) :
    ∀ (i : Nat) (l : List Node),
    (orderStamp dId pId i l).map (fun n => n.id) = l.map (fun n => n.id) := by
  intro i l
  induction l generalizing i with
  | nil => rfl
  | cons x l2 ih =>
    show (stampD dId pId x i).id ::
        (orderStamp dId pId (i + 1) l2).map (fun n => n.id) = _
    rw [stampD_id, ih (i + 1)]
    rfl

theorem orderStamp_order_ge (dId pId : String) :
    ∀ (i : Nat) (l : List Node) (y : Node), y ∈ orderStamp dId pId i l →
    ∃ k, y.order = some k ∧ i ≤ k := by
  intro i l
  induction l generalizing i with
  | nil => intro y hy; simp [orderStamp] at hy
  | cons x l2 ih =>
    intro y hy
    rw [show orderStamp dId pId i (x :: l2) =
      stampD dId pId x i :: orderStamp dId pId (i + 1) l2 from rfl] at hy
    rcases List.mem_cons.mp hy with hy1 | hy2
    · exact ⟨i, by rw [hy1]; exact stampD_order dId pId x i, le_rfl⟩
    · obtain ⟨k, hk, hik⟩ := ih (i + 1) y hy2
      exact ⟨k, hk, by omega⟩

theorem orderStamp_pairwise (dId pId : String) :
    ∀ (i : Nat) (l : List Node),
    (orderStamp dId pId i l).Pairwise (fun a b => oLe a.order b.order = true) := by
  intro i l
  induction l generalizing i with
  | nil => exact List.Pairwise.nil
  | cons x l2 ih =>
    show (stampD dId pId x i :: orderStamp dId pId (i + 1) l2).Pairwise _
    refine List.pairwise_cons.mpr ⟨?_, ih (i + 1)⟩
    intro y hy
    obtain ⟨k, hk, hik⟩ := orderStamp_order_ge dId pId (i + 1) l2 y hy
    rw [stampD_order, hk]
    simp [oLe]
    omega

theorem orderStamp_inj (dId pId : String) :
    ∀ (i : Nat) (l : List Node) (y z : Node), y ∈ orderStamp dId pId i l →
    z ∈ orderStamp dId pId i l → y.order = z.order → y = z := by
  intro i l
  induction l generalizing i with
  | nil => intro y z hy _ _; simp [orderStamp] at hy
  | cons x l2 ih =>
    intro y z hy hz hord
    rw [show orderStamp dId pId i (x :: l2) =
      stampD dId pId x i :: orderStamp dId pId (i + 1) l2 from rfl] at hy hz
    rcases List.mem_cons.mp hy with hy1 | hy2 <;>
      rcases List.mem_cons.mp hz with hz1 | hz2
    · rw [hy1, hz1]
    · exfalso
      obtain ⟨k, hk, hik⟩ := orderStamp_order_ge dId pId (i + 1) l2 z hz2
      rw [hy1, stampD_order, hk] at hord
      have := Option.some.inj hord
      omega
    · exfalso
      obtain ⟨k, hk, hik⟩ := orderStamp_order_ge dId pId (i + 1) l2 y hy2
      rw [hz1, stampD_order, hk] at hord
      have := Option.some.inj hord
      omega
    · exact ih (i + 1) y z hy2 hz2 hord

theorem oLe_antisymm : ∀ a b : Option Nat,
    oLe a b = true → oLe b a = true → a = b := by
  intro a b hab hba
  cases a with
  | none =>
    cases b with
    | none => rfl
    | some b2 => simp [oLe] at hab
  | some a2 =>
    cases b with
    | none => simp [oLe] at hba
    | some b2 =>
      simp [oLe] at hab hba
      simp
      omega

theorem map_reindex_orderStamp (dId pId : String) :
    ∀ (suf pre : List Node), ((pre ++ suf).map (fun n => n.id)).Nodup →
    suf.map (reindexBy (pre ++ suf) dId pId) =
      orderStamp dId pId pre.length suf := by
  intro suf
  induction suf with
  | nil => intro pre _; rfl
  | cons x rest ih =>
    intro pre hnd
    rw [List.map_cons]
    have hux : ∀ y ∈ pre, (y.id == x.id) = false := by
      intro y hy
      rw [List.map_append, List.map_cons] at hnd
      have hdisj := (List.nodup_append.mp hnd).2.2
      have hne : y.id ≠ x.id := fun he =>
        hdisj (List.mem_map_of_mem _ hy)
          (by rw [he]; exact List.mem_cons_self _ _)
      simpa using hne
    have hfind : findIdxA (fun b => b.id == x.id) (pre ++ x :: rest) =
        some pre.length :=
      findIdxA_first _ pre x rest (fun y hy => hux y hy) (by simp)
    have hhead : reindexBy (pre ++ x :: rest) dId pId x =
        stampD dId pId x pre.length := by
      unfold reindexBy stampD
      rw [hfind]
    rw [hhead]
    show stampD dId pId x pre.length ::
        rest.map (reindexBy (pre ++ x :: rest) dId pId) =
      stampD dId pId x pre.length :: orderStamp dId pId (pre.length + 1) rest
    congr 1
    have hassoc : pre ++ x :: rest = (pre ++ [x]) ++ rest := by simp
    rw [hassoc, ih (pre ++ [x]) (by rw [← hassoc]; exact hnd)]
    simp

/-- Claim C5: with unique ids, when the dragged sibling `D` sits
immediately before the target `T` in the sorted child sequence of `P`,
the same-parent reorder of `D` onto `T` leaves the child id-sequence of
`P` exactly as it was — re-applying a reorder that already holds is a
no-op on the sibling order. -/
theorem reorder_same_parent_stable (s : Store) (P : String) (D T : Node)
    (hnd : nodupIds s) (u v : List Node)
    (hsplit : getItemsByParent s P = u ++ D :: T :: v) :
    (getItemsByParent (reorderBookmark s D T P) P).map (fun n => n.id) =
      (getItemsByParent s P).map (fun n => n.id) := by
  have hnd2 : (s.map (fun n => n.id)).Nodup := hnd
  have hsnodup : ((getItemsByParent s P).map (fun n => n.id)).Nodup := by
    have h1 : ((s.filter (fun n => n.parent == P)).map (fun n => n.id)).Sublist
        (s.map (fun n => n.id)) := (List.filter_sublist s).map _
    have h2 : ((s.filter (fun n => n.parent == P)).map (fun n => n.id)).Nodup :=
      hnd2.sublist h1
    have h3 : ((getItemsByParent s P).map (fun n => n.id)).Perm
        ((s.filter (fun n => n.parent == P)).map (fun n => n.id)) :=
      (sortLe_perm _ _).map _
    exact h3.nodup_iff.mpr h2
  have hD : D ∈ getItemsByParent s P := by rw [hsplit]; simp
  have hDs : D ∈ s := (mem_getItemsByParent.mp hD).1
  have hDP : D.parent = P := (mem_getItemsByParent.mp hD).2
  have hsplitids := hsnodup
  rw [hsplit, List.map_append, List.map_cons, List.map_cons] at hsplitids
  obtain ⟨hu_nodup, hcons_nodup, hdisj⟩ := List.nodup_append.mp hsplitids
  have huD : ∀ x ∈ u, (x.id == D.id) = false := by
    intro x hx
    have hne : x.id ≠ D.id := fun he =>
      hdisj (List.mem_map_of_mem _ hx) (by rw [he]; exact List.mem_cons_self _ _)
    simpa using hne
  have huT : ∀ x ∈ u, (x.id == T.id) = false := by
    intro x hx
    have hne : x.id ≠ T.id := fun he =>
      hdisj (List.mem_map_of_mem _ hx)
        (by rw [he]; exact List.mem_cons_of_mem _ (List.mem_cons_self _ _))
    simpa using hne
  have hnotD : D.id ∉ T.id :: v.map (fun n => n.id) :=
    (List.nodup_cons.mp hcons_nodup).1
  have hTD : (T.id == D.id) = false := by
    have hne : T.id ≠ D.id := fun he =>
      hnotD (by rw [← he]; exact List.mem_cons_self _ _)
    simpa using hne
  have hvD : ∀ x ∈ v, (x.id == D.id) = false := by
    intro x hx
    have hne : x.id ≠ D.id := fun he =>
      hnotD (by rw [← he]; exact List.mem_cons_of_mem _ (List.mem_map_of_mem _ hx))
    simpa using hne
  have hAfilter : (getItemsByParent s P).filter (fun b => !(b.id == D.id)) =
      u ++ T :: v := by
    rw [hsplit, List.filter_append]
    have h1 : u.filter (fun b => !(b.id == D.id)) = u :=
      List.filter_eq_self.mpr (fun x hx => by simp [huD x hx])
    have h2 : (D :: T :: v).filter (fun b => !(b.id == D.id)) = T :: v := by
      rw [List.filter_cons, List.filter_cons]
      rw [if_neg (by simp), if_pos (by simp [hTD])]
      rw [List.filter_eq_self.mpr (fun x hx => by simp [hvD x hx])]
    rw [h1, h2]
  have hB : findIdxA (fun b => b.id == T.id) (u ++ T :: v) = some u.length :=
    findIdxA_first _ u T v (fun x hx => huT x hx) (by simp)
  have hC : (u ++ T :: v).insertIdx u.length D = getItemsByParent s P := by
    rw [insertIdx_at_len u D (T :: v)]
    exact hsplit.symm
  have hstep : reorderBookmark s D T P =
      s.map (reindexBy (getItemsByParent s P) D.id P) := by
    show (match findIdxA (fun b => b.id == T.id)
        ((getItemsByParent s P).filter (fun b => !(b.id == D.id))) with
      | none => s
      | some targetIndex =>
        s.map (reindexBy
          (((getItemsByParent s P).filter
            (fun b => !(b.id == D.id))).insertIdx targetIndex D) D.id P)) =
      s.map (reindexBy (getItemsByParent s P) D.id P)
    rw [hAfilter, hB]
    show s.map (reindexBy ((u ++ T :: v).insertIdx u.length D) D.id P) = _
    rw [hC]
  have hparent : ∀ n ∈ s,
      (reindexBy (getItemsByParent s P) D.id P n).parent = n.parent := by
    intro n hn
    unfold reindexBy
    cases hf : findIdxA (fun b => b.id == n.id) (getItemsByParent s P) with
    | none => rfl
    | some j =>
      by_cases hid : (n.id == D.id) = true
      · show (if (n.id == D.id) = true then
            { n with order := some j, parent := P }
          else { n with order := some j }).parent = n.parent
        rw [if_pos hid]
        show P = n.parent
        rw [mem_id_eq hnd hn hDs (by simpa using hid)]
        exact hDP.symm
      · show (if (n.id == D.id) = true then
            { n with order := some j, parent := P }
          else { n with order := some j }).parent = n.parent
        rw [if_neg hid]
  have hfilter2 : (s.map (reindexBy (getItemsByParent s P) D.id P)).filter
        (fun n => n.parent == P) =
      (s.filter (fun n => n.parent == P)).map
        (reindexBy (getItemsByParent s P) D.id P) := by
    rw [List.filter_map]
    congr 1
    apply List.filter_congr
    intro n hn
    simp only [Function.comp_apply]
    rw [hparent n hn]
  have hgip : getItemsByParent (reorderBookmark s D T P) P =
      sortLe (fun a b => oLe a.order b.order)
        ((s.filter (fun n => n.parent == P)).map
          (reindexBy (getItemsByParent s P) D.id P)) := by
    rw [hstep]
    show sortLe (fun a b => oLe a.order b.order)
        ((s.map (reindexBy (getItemsByParent s P) D.id P)).filter
          (fun n => n.parent == P)) = _
    rw [hfilter2]
  have hmapstamp : (getItemsByParent s P).map
        (reindexBy (getItemsByParent s P) D.id P) =
      orderStamp D.id P 0 (getItemsByParent s P) := by
    have h4 := map_reindex_orderStamp D.id P (getItemsByParent s P) []
      (by simpa using hsnodup)
    simpa using h4
  have hperm1 : (getItemsByParent (reorderBookmark s D T P) P).Perm
      (orderStamp D.id P 0 (getItemsByParent s P)) := by
    rw [hgip, ← hmapstamp]
    exact (sortLe_perm _ _).trans
      ((sortLe_perm (fun a b => oLe a.order b.order)
        (s.filter (fun n => n.parent == P))).symm.map _)
  have hp1 : (getItemsByParent (reorderBookmark s D T P) P).Pairwise
      (fun a b => oLe a.order b.order = true) := by
    rw [hgip]
    apply sortLe_pairwise
    · exact fun a b c hab hbc => oLe_trans a.order b.order c.order hab hbc
    · exact fun a b => oLe_total a.order b.order
  have hfinal : getItemsByParent (reorderBookmark s D T P) P =
      orderStamp D.id P 0 (getItemsByParent s P) := by
    apply perm_pairwise_eq _ _ hperm1 hp1 (orderStamp_pairwise D.id P 0 _)
    intro a ha b hb h1 h2
    exact orderStamp_inj D.id P 0 (getItemsByParent s P) a b
      (hperm1.subset ha) (hperm1.subset hb) (oLe_antisymm _ _ h1 h2)
  rw [hfinal, orderStamp_id]

def nodeD5 : Node :=
  { id := "d", name := "d", type := "link", parent := "p", url := some "u",
    order := some 0 }

def nodeT5 : Node :=
  { id := "t", name := "t", type := "link", parent := "p", url := some "u",
    order := some 1 }

def nodeE5 : Node :=
  { id := "e", name := "e", type := "link", parent := "p", url := some "u",
    order := some 2 }

def storeC5 : Store :=
  [{ id := "p", name := "p", type := "folder", parent := "" },
   nodeD5, nodeT5, nodeE5]

theorem reorder_same_parent_stable_witness :
    (getItemsByParent (reorderBookmark storeC5 nodeD5 nodeT5 "p") "p").map
        (fun n => n.id) =
      (getItemsByParent storeC5 "p").map (fun n => n.id) :=
  reorder_same_parent_stable storeC5 "p" nodeD5 nodeT5 (by decide) [] [nodeE5]
    (by decide)

theorem navigateToFolder_depth_witness :
    (navigateToFolder pathC8 folderC8 9).1 = true ∧
    (navigateToFolder pathC8 folderC8 9).2.length = 9 ∧
    navigateToFolder pathC8 folderC8 10 = (false, pathC8) :=
  ⟨(navigateToFolder_depth pathC8 folderC8 9).1.mpr (by decide),
   (navigateToFolder_depth pathC8 folderC8 9).2.2.2 (by decide) (by decide)
     (by decide),
   (navigateToFolder_depth pathC8 folderC8 10).2.1 (by decide)⟩

end Homepage
